import Mathlib

/-!
Verification development for the lhscript front end (scanner, recursive-descent
parser, AST printer).  Rust sources: `src/scanner.rs`, `src/token.rs`,
`src/parser.rs`, `src/errors.rs`, `src/ast/types.rs`, `src/ast/printer.rs`.

Modelling conventions:
* The Rust `Scanner` iterator state (`code`, `current`, `position`) is passed
  explicitly: the not-yet-consumed characters as a `List Char` together with the
  current `Position`.  `Iterator::next` consumes the head and peeks one ahead.
* Rust `f64` number payloads are modelled by the scanned decimal text: the
  parser never compares `Number` payloads, so only `str::parse::<f64>` success
  (`f64ParseOk`) and `Display` (`f64Display`) matter; both are modelled on the
  decimal fragment the scanner can produce.
* Unicode character classes (`is_whitespace`, `is_alphabetic`, `is_numeric`,
  `is_alphanumeric`) are modelled by Lean's ASCII `Char` predicates.
* The scanner's main loop and the parser are given an explicit fuel argument
  (first `Nat`); `none` models a non-terminating / panicking run and is proved
  unreachable for the fuel the entry points supply.  Rust `Option::unwrap`
  calls in the parser also map to the `none` outcome.
-/

namespace Lhscript

/-- `Position` from `src/scanner.rs`: line/column cursor into the source. -/
structure Position where
  line : Nat
  column : Nat
deriving DecidableEq, Repr

/-- `Scanner::advance` effect on the position: one step, one column. -/
def Position.advanceCol (p : Position) : Position :=
  ⟨p.line, p.column + 1⟩

/-- `Scanner::newline`: next line, column back to zero. -/
def Position.newline (p : Position) : Position :=
  ⟨p.line + 1, 0⟩

/-- `Token` from `src/token.rs`.  `Number` carries the scanned decimal text
(modelling the Rust `f64` payload, see the header). -/
inductive Token where
  | LeftParenthesis
  | RightParenthesis
  | LeftBrace
  | RightBrace
  | Comma
  | Dot
  | Minus
  | Plus
  | Colon
  | Semicolon
  | Slash
  | Star
  | Question
  | Bang
  | BangEqual
  | Equal
  | EqualEqual
  | Greater
  | GreaterEqual
  | Less
  | LessEqual
  | And
  | Or
  | Identifier (text : String)
  | String (text : String)
  | Number (text : String)
  | Class
  | Else
  | False
  | Fn
  | For
  | If
  | Null
  | Print
  | Return
  | Super
  | This
  | True
  | Let
  | While
  | Eof
deriving DecidableEq, Repr

/-- `TokenMetadata` from `src/token.rs`: a token with its position. -/
structure TokenMetadata where
  token : Token
  position : Position
deriving DecidableEq, Repr

/-- `ScannerError` from `src/scanner.rs` / `src/errors.rs`. -/
inductive ScannerError where
  | UnexpectedToken (position : Position)
  | NumberLiteralParsingError (position : Position)
  | UnterminatedMultilineComment (position : Position)
deriving DecidableEq, Repr

/-- `ParserError` from `src/errors.rs`. -/
inductive ParserError where
  | Unexpected
  | Consume
deriving DecidableEq, Repr

/-- `ScriptError` from `src/errors.rs` (the `FileIo` variant carries an OS
error and is out of scope for the core). -/
inductive ScriptError where
  | ScannerError (err : ScannerError)
  | ParserError (err : ParserError)
  | AstPrinterError
deriving DecidableEq, Repr

/-- `Scanner::scan_line_comment`: consume the iterator until the lookahead is a
newline (the newline itself is left for the main loop). -/
def scan_line_comment : List Char → Position → List Char × Position
  | [], pos => ([], pos)
  | _ :: rest, pos =>
    let pos1 := pos.advanceCol
    if rest.head? == some '\n' then (rest, pos1)
    else scan_line_comment rest pos1

/-- `Scanner::scan_multiline_comment`: consume until `*/`; a newline bumps the
line counter; running out of input with a non-newline last character fails. -/
def scan_multiline_comment : List Char → Position → Except ScannerError (List Char × Position)
  | [], pos => .ok ([], pos)
  | c :: rest, pos =>
    let pos1 := pos.advanceCol
    if c == '\n' then scan_multiline_comment rest pos1.newline
    else if c == '*' && rest.head? == some '/' then .ok (rest.tail, pos1.advanceCol)
    else if rest.head? == none then .error (.UnterminatedMultilineComment pos1)
    else scan_multiline_comment rest pos1

/-- The `for` loop inside `Scanner::scan_number_literal`: push the consumed
character, stop when the lookahead is not a digit and not `'.'`. -/
def number_literal_loop (num : List Char) : List Char → Position → List Char × List Char × Position
  | [], pos => (num, [], pos)
  | c :: rest, pos =>
    let pos1 := pos.advanceCol
    let num1 := num ++ [c]
    if rest.head?.any (fun n => n.isDigit || n == '.') then number_literal_loop num1 rest pos1
    else (num1, rest, pos1)

/-- Success of Rust `str::parse::<f64>` on the scanned text, modelled on the
digit-initial decimal fragment the scanner produces:
`digits+ ('.' digits*)? (('e'|'E') sign? digits+)?`
(signs, `inf` and `nan` forms are unreachable, the text starts with a digit). -/
def f64ParseOk (s : String) : Bool :=
  let cs := s.data
  let ds := cs.takeWhile Char.isDigit
  let r1 := cs.dropWhile Char.isDigit
  if ds.isEmpty then false
  else
    let r2 := if r1.head? == some '.' then (r1.tail.dropWhile Char.isDigit) else r1
    match r2 with
    | [] => true
    | e :: r3 =>
      if e == 'e' || e == 'E' then
        let r4 := if r3.head? == some '+' || r3.head? == some '-' then r3.tail else r3
        !(r4.takeWhile Char.isDigit).isEmpty && (r4.dropWhile Char.isDigit).isEmpty
      else false

/-- `Scanner::scan_number_literal`: record the start position, run the loop,
then attempt the `f64` parse; failure reports the start position. -/
def scan_number_literal (initial : Char) (chars : List Char) (pos : Position) :
    Except ScannerError (Token × List Char × Position) :=
  let startPos := pos
  match number_literal_loop [initial] chars pos with
  | (num, rest, pos1) =>
    if f64ParseOk (String.mk num) then .ok (.Number (String.mk num), rest, pos1)
    else .error (.NumberLiteralParsingError startPos)

/-- The `while let` loop inside `Scanner::scan_string_literal`: push the
consumed character, and when the lookahead is the closing quote consume it and
stop.  No escape processing; end of input also stops the loop. -/
def string_literal_loop (acc : List Char) : List Char → Position → List Char × List Char × Position
  | [], pos => (acc, [], pos)
  | c :: rest, pos =>
    let pos1 := pos.advanceCol
    let acc1 := acc ++ [c]
    if rest.head? == some '"' then (acc1, rest.tail, pos1.advanceCol)
    else string_literal_loop acc1 rest pos1

/-- `Scanner::scan_string_literal`. -/
def scan_string_literal (chars : List Char) (pos : Position) : Token × List Char × Position :=
  match string_literal_loop [] chars pos with
  | (acc, rest, pos1) => (.String (String.mk acc), rest, pos1)

/-- The `for` loop inside `Scanner::scan_keyword_or_identifier`: push the
consumed character, stop when the lookahead is not alphanumeric. -/
def identifier_loop (acc : List Char) : List Char → Position → List Char × List Char × Position
  | [], pos => (acc, [], pos)
  | c :: rest, pos =>
    let pos1 := pos.advanceCol
    let acc1 := acc ++ [c]
    if rest.head?.any Char.isAlphanum then identifier_loop acc1 rest pos1
    else (acc1, rest, pos1)

/-- The reserved-keyword table at the end of `Scanner::scan_keyword_or_identifier`. -/
def keyword_table (identifier : String) : Token :=
  match identifier with
  | "class" => .Class
  | "else" => .Else
  | "false" => .False
  | "fn" => .Fn
  | "for" => .For
  | "if" => .If
  | "null" => .Null
  | "print" => .Print
  | "return" => .Return
  | "super" => .Super
  | "this" => .This
  | "true" => .True
  | "let" => .Let
  | "while" => .While
  | ident => .Identifier ident

/-- `Scanner::scan_keyword_or_identifier` (its Rust `Result` never errors). -/
def scan_keyword_or_identifier (initial : Char) (chars : List Char) (pos : Position) :
    Token × List Char × Position :=
  match identifier_loop [initial] chars pos with
  | (acc, rest, pos1) => (keyword_table (String.mk acc), rest, pos1)

/-- The `while let` dispatch loop of `Scanner::tokens`.  The first `Nat` is
fuel; each iteration consumes at least one character, so any fuel above the
input length suffices (proved below).  Arms appear in source order. -/
def tokensLoop : Nat → List Char → Position → List TokenMetadata →
    Option (Except ScannerError (List TokenMetadata × Position))
  | 0, _, _, _ => none
  | _ + 1, [], pos, acc => some (.ok (acc, pos))
  | fuel + 1, c :: rest, pos, acc =>
    let pos1 := pos.advanceCol
    if c == '\n' then tokensLoop fuel rest pos1.newline acc
    else if c.isWhitespace then tokensLoop fuel rest pos1 acc
    else if c == '/' && rest.head? == some '/' then
      match scan_line_comment rest pos1 with
      | (rest1, pos2) => tokensLoop fuel rest1 pos2 acc
    else if c == '/' && rest.head? == some '*' then
      match scan_multiline_comment rest pos1 with
      | .error e => some (.error e)
      | .ok (rest1, pos2) => tokensLoop fuel rest1 pos2 acc
    else if c == '(' then tokensLoop fuel rest pos1 (acc ++ [⟨.LeftParenthesis, pos1⟩])
    else if c == ')' then tokensLoop fuel rest pos1 (acc ++ [⟨.RightParenthesis, pos1⟩])
    else if c == '\x7b' then tokensLoop fuel rest pos1 (acc ++ [⟨.LeftBrace, pos1⟩])
    else if c == '\x7d' then tokensLoop fuel rest pos1 (acc ++ [⟨.RightBrace, pos1⟩])
    else if c == ',' then tokensLoop fuel rest pos1 (acc ++ [⟨.Comma, pos1⟩])
    else if c == '.' then tokensLoop fuel rest pos1 (acc ++ [⟨.Dot, pos1⟩])
    else if c == '-' then tokensLoop fuel rest pos1 (acc ++ [⟨.Minus, pos1⟩])
    else if c == '+' then tokensLoop fuel rest pos1 (acc ++ [⟨.Plus, pos1⟩])
    else if c == ':' then tokensLoop fuel rest pos1 (acc ++ [⟨.Colon, pos1⟩])
    else if c == ';' then tokensLoop fuel rest pos1 (acc ++ [⟨.Semicolon, pos1⟩])
    else if c == '/' then tokensLoop fuel rest pos1 (acc ++ [⟨.Slash, pos1⟩])
    else if c == '*' then tokensLoop fuel rest pos1 (acc ++ [⟨.Star, pos1⟩])
    else if c == '?' then tokensLoop fuel rest pos1 (acc ++ [⟨.Question, pos1⟩])
    else if c == '!' && rest.head? == some '=' then
      tokensLoop fuel rest.tail pos1.advanceCol (acc ++ [⟨.BangEqual, pos1⟩])
    else if c == '=' && rest.head? == some '=' then
      tokensLoop fuel rest.tail pos1.advanceCol (acc ++ [⟨.EqualEqual, pos1⟩])
    else if c == '>' && rest.head? == some '=' then
      tokensLoop fuel rest.tail pos1.advanceCol (acc ++ [⟨.GreaterEqual, pos1⟩])
    else if c == '<' && rest.head? == some '=' then
      tokensLoop fuel rest.tail pos1.advanceCol (acc ++ [⟨.LessEqual, pos1⟩])
    else if c == '&' && rest.head? == some '&' then
      tokensLoop fuel rest.tail pos1.advanceCol (acc ++ [⟨.And, pos1⟩])
    else if c == '|' && rest.head? == some '|' then
      tokensLoop fuel rest.tail pos1.advanceCol (acc ++ [⟨.Or, pos1⟩])
    else if c == '!' then tokensLoop fuel rest pos1 (acc ++ [⟨.Bang, pos1⟩])
    else if c == '=' then tokensLoop fuel rest pos1 (acc ++ [⟨.Equal, pos1⟩])
    else if c == '>' then tokensLoop fuel rest pos1 (acc ++ [⟨.Greater, pos1⟩])
    else if c == '<' then tokensLoop fuel rest pos1 (acc ++ [⟨.Less, pos1⟩])
    else if c.isAlpha then
      match scan_keyword_or_identifier c rest pos1 with
      | (tok, rest1, pos2) => tokensLoop fuel rest1 pos2 (acc ++ [⟨tok, pos1⟩])
    else if c.isDigit then
      match scan_number_literal c rest pos1 with
      | .error e => some (.error e)
      | .ok (tok, rest1, pos2) => tokensLoop fuel rest1 pos2 (acc ++ [⟨tok, pos1⟩])
    else if c == '"' then
      match scan_string_literal rest pos1 with
      | (tok, rest1, pos2) => tokensLoop fuel rest1 pos2 (acc ++ [⟨tok, pos1⟩])
    else some (.error (.UnexpectedToken pos1))

/-- `Scanner::tokens` via `<&str as Scannable>::tokens`: reset to line 1 /
column 0, run the loop, then advance once more and append the `Eof` token.
`none` models a run that would not terminate (proved impossible below). -/
def stringTokens (code : String) : Option (Except ScannerError (List TokenMetadata)) :=
  match tokensLoop (code.data.length + 1) code.data ⟨1, 0⟩ [] with
  | none => none
  | some (.error e) => some (.error e)
  | some (.ok (acc, pos)) => some (.ok (acc ++ [⟨.Eof, pos.advanceCol⟩]))

/-- `Expression` from `src/ast/types.rs`: the four node kinds.  The Rust
wrapper structs (`UnaryExpression`, `BinaryExpression`, `GroupingExpression`,
`LiteralExpression`) are inlined as constructor fields of the same names. -/
inductive Expression where
  | Unary (operator : Token) (right : Expression)
  | Binary (left : Expression) (operator : Token) (right : Expression)
  | Grouping (group : Expression)
  | Literal (literal : Token)
deriving DecidableEq, Repr

namespace Parser

/-- `Parser::peek`: the token at the current cursor. -/
def peek (tks : List TokenMetadata) (c : Nat) : Option TokenMetadata :=
  tks.get? c

/-- `Parser::previous`: the token one before the cursor (`none` at zero). -/
def previous (tks : List TokenMetadata) (c : Nat) : Option TokenMetadata :=
  if c = 0 then none else tks.get? (c - 1)

/-- `Parser::is_at_end`: the current token is `Eof` (`false` when the cursor
is out of bounds, mirroring `is_some_and`). -/
def is_at_end (tks : List TokenMetadata) (c : Nat) : Bool :=
  (peek tks c).any fun t => t.token == .Eof

/-- `Parser::check`: the current token equals the given one, and is not `Eof`. -/
def check (tks : List TokenMetadata) (tokenType : Token) (c : Nat) : Bool :=
  if is_at_end tks c then false
  else (peek tks c).any fun t => t.token == tokenType

/-- `Parser::matches`: try each token type in order; on the first `check`
success advance the cursor and report `true`. -/
def matchesTk (tks : List TokenMetadata) : List Token → Nat → Bool × Nat
  | [], c => (false, c)
  | t :: types, c =>
    if check tks t c then (true, c + 1) else matchesTk tks types c

/-- `Parser::consume`: require a specific token, else fail with `Consume`. -/
def consume (tks : List TokenMetadata) (tokenType : Token) (c : Nat) :
    Except ParserError Nat :=
  if check tks tokenType c then .ok (c + 1) else .error .Consume

/-- Result of one recursive-descent rule: `none` is a panicking or
fuel-exhausted run, otherwise a `ParserError` or the parsed expression with
the new cursor. -/
abbrev PResult := Option (Except ParserError (Expression × Nat))

mutual

/-- `Parser::expression`. -/
def expression (tks : List TokenMetadata) (c : Nat) (fuel : Nat) : PResult :=
  match fuel with
  | 0 => none
  | fuel + 1 => equality tks c fuel
termination_by structural fuel

/-- `Parser::equality`: one `comparison`, then the fold loop. -/
def equality (tks : List TokenMetadata) (c : Nat) (fuel : Nat) : PResult :=
  match fuel with
  | 0 => none
  | fuel + 1 =>
    match comparison tks c fuel with
    | none => none
    | some (.error e) => some (.error e)
    | some (.ok (e, c1)) => equality_fold tks e c1 fuel
termination_by structural fuel

/-- The `while self.matches(..)` loop of `Parser::equality`: fold the running
expression as the left child of a new `Binary` node. -/
def equality_fold (tks : List TokenMetadata) (e : Expression) (c : Nat) (fuel : Nat) : PResult :=
  match fuel with
  | 0 => none
  | fuel + 1 =>
    match matchesTk tks [.BangEqual, .EqualEqual] c with
    | (false, c1) => some (.ok (e, c1))
    | (true, c1) =>
      match previous tks c1 with
      | none => none
      | some op =>
        match comparison tks c1 fuel with
        | none => none
        | some (.error err) => some (.error err)
        | some (.ok (right, c2)) =>
          equality_fold tks (.Binary e op.token right) c2 fuel
termination_by structural fuel

/-- `Parser::comparison`. -/
def comparison (tks : List TokenMetadata) (c : Nat) (fuel : Nat) : PResult :=
  match fuel with
  | 0 => none
  | fuel + 1 =>
    match term tks c fuel with
    | none => none
    | some (.error e) => some (.error e)
    | some (.ok (e, c1)) => comparison_fold tks e c1 fuel
termination_by structural fuel

/-- The fold loop of `Parser::comparison`. -/
def comparison_fold (tks : List TokenMetadata) (e : Expression) (c : Nat) (fuel : Nat) : PResult :=
  match fuel with
  | 0 => none
  | fuel + 1 =>
    match matchesTk tks [.Greater, .GreaterEqual, .Less, .LessEqual] c with
    | (false, c1) => some (.ok (e, c1))
    | (true, c1) =>
      match previous tks c1 with
      | none => none
      | some op =>
        match term tks c1 fuel with
        | none => none
        | some (.error err) => some (.error err)
        | some (.ok (right, c2)) =>
          comparison_fold tks (.Binary e op.token right) c2 fuel
termination_by structural fuel

/-- `Parser::term`. -/
def term (tks : List TokenMetadata) (c : Nat) (fuel : Nat) : PResult :=
  match fuel with
  | 0 => none
  | fuel + 1 =>
    match factor tks c fuel with
    | none => none
    | some (.error e) => some (.error e)
    | some (.ok (e, c1)) => term_fold tks e c1 fuel
termination_by structural fuel

/-- The fold loop of `Parser::term`. -/
def term_fold (tks : List TokenMetadata) (e : Expression) (c : Nat) (fuel : Nat) : PResult :=
  match fuel with
  | 0 => none
  | fuel + 1 =>
    match matchesTk tks [.Minus, .Plus] c with
    | (false, c1) => some (.ok (e, c1))
    | (true, c1) =>
      match previous tks c1 with
      | none => none
      | some op =>
        match factor tks c1 fuel with
        | none => none
        | some (.error err) => some (.error err)
        | some (.ok (right, c2)) =>
          term_fold tks (.Binary e op.token right) c2 fuel
termination_by structural fuel

/-- `Parser::factor`. -/
def factor (tks : List TokenMetadata) (c : Nat) (fuel : Nat) : PResult :=
  match fuel with
  | 0 => none
  | fuel + 1 =>
    match unary tks c fuel with
    | none => none
    | some (.error e) => some (.error e)
    | some (.ok (e, c1)) => factor_fold tks e c1 fuel
termination_by structural fuel

/-- The fold loop of `Parser::factor`. -/
def factor_fold (tks : List TokenMetadata) (e : Expression) (c : Nat) (fuel : Nat) : PResult :=
  match fuel with
  | 0 => none
  | fuel + 1 =>
    match matchesTk tks [.Slash, .Star] c with
    | (false, c1) => some (.ok (e, c1))
    | (true, c1) =>
      match previous tks c1 with
      | none => none
      | some op =>
        match unary tks c1 fuel with
        | none => none
        | some (.error err) => some (.error err)
        | some (.ok (right, c2)) =>
          factor_fold tks (.Binary e op.token right) c2 fuel
termination_by structural fuel

/-- `Parser::unary`: a leading `!`/`-` wraps a recursively parsed unary,
otherwise fall through to `primary`. -/
def unary (tks : List TokenMetadata) (c : Nat) (fuel : Nat) : PResult :=
  match fuel with
  | 0 => none
  | fuel + 1 =>
    match matchesTk tks [.Bang, .Minus] c with
    | (true, c1) =>
      match previous tks c1 with
      | none => none
      | some op =>
        match unary tks c1 fuel with
        | none => none
        | some (.error err) => some (.error err)
        | some (.ok (right, c2)) => some (.ok (.Unary op.token right, c2))
    | (false, c1) => primary tks c1 fuel
termination_by structural fuel

/-- `Parser::primary`: literal keywords, `String`/`Number` tokens, grouping,
else `Unexpected`.  The Rust `self.peek().unwrap()` maps to the `none`
outcome when the cursor is out of bounds. -/
def primary (tks : List TokenMetadata) (c : Nat) (fuel : Nat) : PResult :=
  match fuel with
  | 0 => none
  | fuel + 1 =>
    match matchesTk tks [.False] c with
    | (true, c1) => some (.ok (.Literal .False, c1))
    | (false, c1) =>
    match matchesTk tks [.True] c1 with
    | (true, c2) => some (.ok (.Literal .True, c2))
    | (false, c2) =>
    match matchesTk tks [.Null] c2 with
    | (true, c3) => some (.ok (.Literal .Null, c3))
    | (false, c3) =>
    match peek tks c3 with
    | none => none
    | some tm =>
      match tm.token with
      | .String s => some (.ok (.Literal (.String s), c3 + 1))
      | .Number n => some (.ok (.Literal (.Number n), c3 + 1))
      | _ =>
        match matchesTk tks [.LeftParenthesis] c3 with
        | (true, c4) =>
          match expression tks c4 fuel with
          | none => none
          | some (.error err) => some (.error err)
          | some (.ok (e, c5)) =>
            match consume tks .RightParenthesis c5 with
            | .error err => some (.error err)
            | .ok c6 => some (.ok (.Grouping e, c6))
        | (false, _) => some (.error .Unexpected)
termination_by structural fuel

end

/-- Fuel that suffices for any run of the parser on `tks` (proved below):
twelve units per remaining token plus the depth of the rule ladder. -/
def parserFuel (tks : List TokenMetadata) : Nat :=
  12 * tks.length + 11

/-- `Parser::parse` on a token list (`Parser::new` sets the cursor to zero);
the final cursor is dropped as in Rust. -/
def parse (tks : List TokenMetadata) : Option (Except ParserError Expression) :=
  match expression tks 0 (parserFuel tks) with
  | none => none
  | some (.error e) => some (.error e)
  | some (.ok (e, _)) => some (.ok e)

end Parser

/-- Rust `f64::to_string` applied to the parsed decimal text (`nbr.to_string()`
in `visit_literal`), modelled on the exact-decimal fragment: leading integer
zeros and trailing fractional zeros (and a bare trailing dot) are dropped.
Texts outside the plain `digits ('.' digits*)?` shape are returned verbatim;
the spec's examples never reach them. -/
def f64Display (s : String) : String :=
  let cs := s.data
  if cs.all (fun c => c.isDigit || c == '.') && cs.count '.' ≤ 1 && !cs.isEmpty then
    let intPart := cs.takeWhile Char.isDigit
    let fracPart := (cs.dropWhile Char.isDigit).tail.reverse.dropWhile (fun c => c == '0')
    let intNorm :=
      match intPart.dropWhile (fun c => c == '0') with
      | [] => ['0']
      | dropped => dropped
    if fracPart.isEmpty then String.mk intNorm
    else String.mk (intNorm ++ '.' :: fracPart.reverse)
  else s

/-- `AstPrinter::parenthesize` specialised to one operand:
`'(' ++ name ++ (' ' ++ operand)* ++ ')'` with error propagation. -/
def parenthesize1 (name : String) (r1 : Except ScriptError String) :
    Except ScriptError String :=
  match r1 with
  | .error e => .error e
  | .ok s1 => .ok ("(" ++ name ++ " " ++ s1 ++ ")")

/-- `AstPrinter::parenthesize` specialised to two operands. -/
def parenthesize2 (name : String) (r1 r2 : Except ScriptError String) :
    Except ScriptError String :=
  match r1 with
  | .error e => .error e
  | .ok s1 =>
    match r2 with
    | .error e => .error e
    | .ok s2 => .ok ("(" ++ name ++ " " ++ s1 ++ " " ++ s2 ++ ")")

/-- `AstPrinter::print` / the `ExpressionVisitor<String>` impl from
`src/ast/printer.rs`: `visit_unary` accepts only `-`; `visit_binary` accepts
`+`, `-`, `*`; `visit_literal` accepts `String` and `Number`; everything else
is `AstPrinterError`. -/
def printExpr : Expression → Except ScriptError String
  | .Unary operator right =>
    match operator with
    | .Minus => parenthesize1 "-" (printExpr right)
    | _ => .error .AstPrinterError
  | .Binary left operator right =>
    match operator with
    | .Plus => parenthesize2 "+" (printExpr left) (printExpr right)
    | .Minus => parenthesize2 "-" (printExpr left) (printExpr right)
    | .Star => parenthesize2 "*" (printExpr left) (printExpr right)
    | _ => .error .AstPrinterError
  | .Grouping group => parenthesize1 "group" (printExpr group)
  | .Literal literal =>
    match literal with
    | .String s => .ok s
    | .Number n => .ok (f64Display n)
    | _ => .error .AstPrinterError

/-- The composition `print(parse(tokenize(s)))` of the three stages, with each
stage's error injected into `ScriptError` as in `src/errors.rs`; `none` models
a non-terminating or panicking run. -/
def pipeline (code : String) : Option (Except ScriptError String) :=
  match stringTokens code with
  | none => none
  | some (.error e) => some (.error (.ScannerError e))
  | some (.ok ts) =>
    match Parser.parse ts with
    | none => none
    | some (.error e) => some (.error (.ParserError e))
    | some (.ok e) =>
      match printExpr e with
      | .error err => some (.error err)
      | .ok s => some (.ok s)

/-- The trees the printer accepts: unary operator `-`; binary operator `+`,
`-` or `*`; literals `Number` or `String` (read off `src/ast/printer.rs`). -/
def printerSupported : Expression → Bool
  | .Unary operator right =>
    (operator == .Minus) && printerSupported right
  | .Binary left operator right =>
    (operator == .Plus || operator == .Minus || operator == .Star) &&
      printerSupported left && printerSupported right
  | .Grouping group => printerSupported group
  | .Literal literal =>
    match literal with
    | .String _ => true
    | .Number _ => true
    | _ => false

/-- Well-formed token sequences (claim C10's hypothesis): the last token is
`Eof` and no earlier token is `Eof`. -/
def WFTokens (tks : List TokenMetadata) : Prop :=
  ∃ pre pe, tks = pre ++ [⟨Token.Eof, pe⟩] ∧ ∀ tm ∈ pre, tm.token ≠ Token.Eof

/-- One link of a same-precedence operator chain: an operator token followed
by a number operand, each with a source position. -/
structure ChainLink where
  op : Token
  opPos : Position
  num : String
  numPos : Position

/-- The `op NUMBER` token pairs of an operator chain. -/
def chainSeg (links : List ChainLink) : List TokenMetadata :=
  links.flatMap fun l => [⟨l.op, l.opPos⟩, ⟨Token.Number l.num, l.numPos⟩]

/-- The token sequence `NUMBER (op NUMBER)* EOF` of an operator chain. -/
def chainToks (x0 : String) (p0 : Position) (links : List ChainLink) (pe : Position) :
    List TokenMetadata :=
  ⟨Token.Number x0, p0⟩ :: (chainSeg links ++ [⟨Token.Eof, pe⟩])

/-- The left-leaning tree obtained by folding the running result as the left
child of each new `Binary` node. -/
def chainExpr (x0 : String) (links : List ChainLink) : Expression :=
  links.foldl (fun acc l => .Binary acc l.op (.Literal (.Number l.num)))
    (.Literal (.Number x0))

/-- Whether the character list contains an adjacent `*` `/` pair — the
terminator `scan_multiline_comment` looks for. -/
def hasCommentClose : List Char → Bool
  | c1 :: c2 :: rest => (c1 == '*' && c2 == '/') || hasCommentClose (c2 :: rest)
  | _ => false

/-! ### Theorems -/

/-- With no closing quote anywhere, the string-literal loop consumes the whole
remaining input, one column per character, and returns it all as content. -/
lemma string_literal_loop_no_close (chars : List Char) :
    ∀ (acc : List Char) (pos : Position), '"' ∉ chars →
      string_literal_loop acc chars pos =
        (acc ++ chars, [], ⟨pos.line, pos.column + chars.length⟩) := by
  induction chars with
  | nil => intro acc pos _; simp [string_literal_loop]
  | cons c rest ih =>
    intro acc pos hq
    have hqr : '"' ∉ rest := fun h => hq (List.mem_cons_of_mem _ h)
    have hhead : (rest.head? == some '"') = false := by
      cases hr : rest.head? with
      | none => rfl
      | some x =>
        have : x ∈ rest := List.mem_of_mem_head? hr
        have : x ≠ '"' := fun hx => hqr (hx ▸ this)
        simp [hr, this]
    simp only [string_literal_loop, hhead, Bool.false_eq_true, if_false]
    rw [ih (acc ++ [c]) (pos.advanceCol) hqr]
    simp [Position.advanceCol]
    omega

/-- C9: if the scanner's dispatch loop opens a string literal (`"` is the
current character) and no closing quote ever appears, the scan still
terminates: the string loop consumes the rest of the input into one `String`
token and the whole call returns `Ok` — no lexical error, no hang.
Concretely, `tokenize "\"no end"` succeeds with a single `String "no end"`
token followed by `Eof`. -/
theorem claim_c9_unterminated_string_terminates :
    (∀ (rest : List Char) (pos : Position) (acc : List TokenMetadata) (fuel : Nat),
      '"' ∉ rest → 2 ≤ fuel →
      tokensLoop fuel ('"' :: rest) pos acc =
        some (.ok (acc ++ [⟨.String (String.mk rest), pos.advanceCol⟩],
          ⟨pos.line, pos.column + (1 + rest.length)⟩))) ∧
    stringTokens "\"no end" =
      some (.ok [⟨.String "no end", ⟨1, 1⟩⟩, ⟨.Eof, ⟨1, 8⟩⟩]) := by
  constructor
  · intro rest pos acc fuel hq hfuel
    obtain ⟨f, rfl⟩ : ∃ f, fuel = f + 2 := ⟨fuel - 2, by omega⟩
    show (match scan_string_literal rest pos.advanceCol with
      | (tok, rest1, pos2) =>
        tokensLoop (f + 1) rest1 pos2 (acc ++ [TokenMetadata.mk tok pos.advanceCol])) = _
    rw [scan_string_literal, string_literal_loop_no_close rest [] pos.advanceCol hq]
    show tokensLoop (f + 1) [] _ _ = _
    rw [tokensLoop]
    simp [Position.advanceCol]
    omega
  · rfl

/-- C9 witness: the theorem applied to the concrete unterminated literal
`"abc` (opening quote, then `abc`, no closing quote). -/
theorem claim_c9_witness :
    '"' ∉ (['a', 'b', 'c'] : List Char) ∧ 2 ≤ 5 ∧
    tokensLoop 5 ('"' :: ['a', 'b', 'c']) ⟨1, 0⟩ [] =
      some (.ok ([⟨.String (String.mk ['a', 'b', 'c']), Position.advanceCol ⟨1, 0⟩⟩],
        ⟨1, 0 + (1 + 3)⟩)) :=
  ⟨by decide, by decide,
    claim_c9_unterminated_string_terminates.1 ['a', 'b', 'c'] ⟨1, 0⟩ [] 5
      (by decide) (by decide)⟩

/-- C2 (amended): when the character stream ends inside a `/* ... */` comment,
the error is `UnterminatedMultilineComment`, but its `Position` is the last
consumed character — one column per consumed character past where the loop
started — i.e. the point where input was exhausted, not the comment's start
(`scan_multiline_comment` never records a start position).  The statement is
for a tail containing no newline and no `*/` pair; a tail whose final
character is a newline would instead end the loop without any error. -/
theorem claim_c2_unterminated_position :
    ∀ (chars : List Char) (pos : Position), chars ≠ [] → '\n' ∉ chars →
      hasCommentClose chars = false →
      scan_multiline_comment chars pos =
        .error (.UnterminatedMultilineComment ⟨pos.line, pos.column + chars.length⟩) := by
  intro chars
  induction chars with
  | nil => intro pos h; exact absurd rfl h
  | cons c rest ih =>
    intro pos _ hnl hcc
    have hc : (c == '\n') = false := by
      have hne : c ≠ '\n' := fun h => hnl (h ▸ List.mem_cons_self c rest)
      simp [hne]
    cases rest with
    | nil =>
      simp [scan_multiline_comment, hc, Position.advanceCol]
    | cons c2 r2 =>
      rw [hasCommentClose, Bool.or_eq_false_iff] at hcc
      have hnl2 : '\n' ∉ c2 :: r2 := fun h => hnl (List.mem_cons_of_mem _ h)
      have hcond : ¬(((c == '*') && ((c2 :: r2).head? == some '/')) = true) := by
        simp only [List.head?_cons, Bool.and_eq_true, beq_iff_eq,
          Option.some.injEq, not_and]
        intro h1 h2
        subst h1; subst h2
        simp at hcc
      rw [scan_multiline_comment, if_neg (by simp [hc]), if_neg hcond,
        if_neg (by simp), ih pos.advanceCol (by simp) hnl2 hcc.2]
      simp [Position.advanceCol]
      omega

/-- C2 witness: the theorem applied to `* no end`, the tail the scanner hands
to `scan_multiline_comment` on the input `/* no end`. -/
theorem claim_c2_witness :
    ("* no end".data ≠ [] ∧ '\n' ∉ "* no end".data ∧
      hasCommentClose "* no end".data = false) ∧
    scan_multiline_comment "* no end".data ⟨1, 1⟩ =
      .error (.UnterminatedMultilineComment ⟨1, 1 + "* no end".data.length⟩) :=
  ⟨⟨by decide, by decide, by decide⟩,
    claim_c2_unterminated_position "* no end".data ⟨1, 1⟩
      (by decide) (by decide) (by decide)⟩

/-- The string-literal loop on a literal with nonempty content: it pushes the
content characters one by one, then sees the closing quote as lookahead,
consumes it and stops — the payload is exactly the enclosed text. -/
lemma string_literal_loop_closed :
    ∀ (content : List Char), content ≠ [] → '"' ∉ content →
      ∀ (acc rest : List Char) (pos : Position),
      string_literal_loop acc (content ++ '"' :: rest) pos =
        (acc ++ content, rest, ⟨pos.line, pos.column + content.length + 1⟩) := by
  intro content
  induction content with
  | nil => intro h; exact absurd rfl h
  | cons c ctail ih =>
    intro _ hq acc rest pos
    cases ctail with
    | nil =>
      simp [string_literal_loop, Position.advanceCol]
    | cons c2 r2 =>
      have hq2 : '"' ∉ c2 :: r2 := fun h => hq (List.mem_cons_of_mem _ h)
      have hc2 : c2 ≠ '"' := fun h => hq2 (h ▸ List.mem_cons_self c2 r2)
      rw [List.cons_append, string_literal_loop,
        if_neg (by simp [List.cons_append, hc2]),
        ih (by simp) hq2 (acc ++ [c]) rest pos.advanceCol]
      simp [Position.advanceCol]
      omega

/-- C6 (amended): for every string literal with **nonempty** content closed by
a `"`, the emitted `String` token's payload is exactly the characters between
the quotes (no escape processing).  The empty literal is the exception the
counterexample exhibits: the loop pushes the current character before
checking the lookahead, so the two-character input `""` yields payload `"`
(one quote) instead of the empty text. -/
theorem claim_c6_string_payload (content rest : List Char) (pos : Position)
    (h1 : content ≠ []) (h2 : '"' ∉ content) :
    scan_string_literal (content ++ '"' :: rest) pos =
      (.String (String.mk content), rest, ⟨pos.line, pos.column + content.length + 1⟩) := by
  rw [scan_string_literal, string_literal_loop_closed content h1 h2 [] rest pos]
  simp

/-- C6 witness: the theorem applied to content `hi`. -/
theorem claim_c6_witness :
    (['h', 'i'] : List Char) ≠ [] ∧ '"' ∉ (['h', 'i'] : List Char) ∧
    scan_string_literal (['h', 'i'] ++ '"' :: []) ⟨1, 1⟩ =
      (.String (String.mk ['h', 'i']), [], ⟨1, 1 + 2 + 1⟩) :=
  ⟨by decide, by decide,
    claim_c6_string_payload ['h', 'i'] [] ⟨1, 1⟩ (by decide) (by decide)⟩

/-- The line-comment scan returns a suffix of its input. -/
lemma scan_line_comment_suffix :
    ∀ (chars : List Char) (pos : Position), (scan_line_comment chars pos).1 <:+ chars := by
  intro chars
  induction chars with
  | nil => intro pos; simp [scan_line_comment]
  | cons c rest ih =>
    intro pos
    rw [scan_line_comment]
    split
    · exact List.suffix_cons c rest
    · exact (ih pos.advanceCol).trans (List.suffix_cons c rest)

/-- The multiline-comment scan returns a suffix of its input. -/
lemma scan_multiline_comment_suffix :
    ∀ (chars : List Char) (pos : Position) (r : List Char) (p : Position),
      scan_multiline_comment chars pos = .ok (r, p) → r <:+ chars := by
  intro chars
  induction chars with
  | nil =>
    intro pos r p h
    simp only [scan_multiline_comment, Except.ok.injEq, Prod.mk.injEq] at h
    rw [← h.1]
  | cons c rest ih =>
    intro pos r p h
    rw [scan_multiline_comment] at h
    split at h
    · exact (ih _ r p h).trans (List.suffix_cons c rest)
    · split at h
      · simp only [Except.ok.injEq, Prod.mk.injEq] at h
        rw [← h.1]
        exact (List.tail_suffix rest).trans (List.suffix_cons c rest)
      · split at h
        · exact absurd h (by simp)
        · exact (ih _ r p h).trans (List.suffix_cons c rest)

/-- The identifier loop returns a suffix of its input. -/
lemma identifier_loop_suffix :
    ∀ (chars acc : List Char) (pos : Position),
      (identifier_loop acc chars pos).2.1 <:+ chars := by
  intro chars
  induction chars with
  | nil => intro acc pos; simp [identifier_loop]
  | cons c rest ih =>
    intro acc pos
    rw [identifier_loop]
    split
    · exact (ih _ pos.advanceCol).trans (List.suffix_cons c rest)
    · exact List.suffix_cons c rest

/-- The number-literal loop returns a suffix of its input. -/
lemma number_literal_loop_suffix :
    ∀ (chars num : List Char) (pos : Position),
      (number_literal_loop num chars pos).2.1 <:+ chars := by
  intro chars
  induction chars with
  | nil => intro num pos; simp [number_literal_loop]
  | cons c rest ih =>
    intro num pos
    rw [number_literal_loop]
    split
    · exact (ih _ pos.advanceCol).trans (List.suffix_cons c rest)
    · exact List.suffix_cons c rest

/-- The string-literal loop returns a suffix of its input. -/
lemma string_literal_loop_suffix :
    ∀ (chars acc : List Char) (pos : Position),
      (string_literal_loop acc chars pos).2.1 <:+ chars := by
  intro chars
  induction chars with
  | nil => intro acc pos; simp [string_literal_loop]
  | cons c rest ih =>
    intro acc pos
    rw [string_literal_loop]
    split
    · exact (List.tail_suffix rest).trans (List.suffix_cons c rest)
    · exact (ih _ pos.advanceCol).trans (List.suffix_cons c rest)

/-- With no newline in its input, the line-comment scan consumes everything,
one column per character, and never touches the line counter. -/
lemma scan_line_comment_pos :
    ∀ (chars : List Char) (pos : Position), '\n' ∉ chars →
      scan_line_comment chars pos = ([], ⟨pos.line, pos.column + chars.length⟩) := by
  intro chars
  induction chars with
  | nil => intro pos _; simp [scan_line_comment]
  | cons c rest ih =>
    intro pos hnl
    have hnr : '\n' ∉ rest := fun h => hnl (List.mem_cons_of_mem _ h)
    have hhead : ¬((rest.head? == some '\n') = true) := by
      cases hr : rest.head? with
      | none => simp
      | some x =>
        have hx : x ≠ '\n' := fun h => hnr (h ▸ List.mem_of_mem_head? hr)
        simp [hx]
    rw [scan_line_comment, if_neg hhead, ih pos.advanceCol hnr]
    simp [Position.advanceCol]
    omega

/-- With no newline in its input, a successful multiline-comment scan keeps
the line and advances the column once per consumed character. -/
lemma scan_multiline_comment_pos :
    ∀ (chars : List Char) (pos : Position) (r : List Char) (p : Position),
      '\n' ∉ chars → scan_multiline_comment chars pos = .ok (r, p) →
      p.line = pos.line ∧ p.column + r.length = pos.column + chars.length := by
  intro chars
  induction chars with
  | nil =>
    intro pos r p _ h
    simp only [scan_multiline_comment, Except.ok.injEq, Prod.mk.injEq] at h
    rw [← h.1, ← h.2]
    simp
  | cons c rest ih =>
    intro pos r p hnl h
    have hnr : '\n' ∉ rest := fun hm => hnl (List.mem_cons_of_mem _ hm)
    rw [scan_multiline_comment] at h
    split at h
    · exact absurd (by simp_all : c = '\n') (fun hc => hnl (hc ▸ List.mem_cons_self c rest))
    · split at h
      · rename_i hcl
        have hrest : rest ≠ [] := by
          intro hr
          rw [hr] at hcl
          simp at hcl
        simp only [Except.ok.injEq, Prod.mk.injEq] at h
        obtain ⟨h1, h2⟩ := h
        subst h1
        subst h2
        refine ⟨rfl, ?_⟩
        simp [Position.advanceCol, List.length_tail]
        have : 1 ≤ rest.length := List.length_pos.mpr hrest
        omega
      · split at h
        · exact absurd h (by simp)
        · obtain ⟨h1, h2⟩ := ih pos.advanceCol r p hnr h
          refine ⟨by simp [Position.advanceCol] at h1 ⊢; omega, ?_⟩
          simp [Position.advanceCol] at h2 ⊢
          omega

/-- The identifier loop keeps the line and advances the column once per
consumed character. -/
lemma identifier_loop_pos :
    ∀ (chars acc : List Char) (pos : Position) (a r : List Char) (q : Position),
      identifier_loop acc chars pos = (a, r, q) →
      q.line = pos.line ∧ q.column + r.length = pos.column + chars.length := by
  intro chars
  induction chars with
  | nil =>
    intro acc pos a r q h
    simp only [identifier_loop, Prod.mk.injEq] at h
    obtain ⟨-, rfl, rfl⟩ := h
    simp
  | cons c rest ih =>
    intro acc pos a r q h
    rw [identifier_loop] at h
    split at h
    · obtain ⟨h1, h2⟩ := ih _ pos.advanceCol a r q h
      exact ⟨by simpa [Position.advanceCol] using h1,
        by simp [Position.advanceCol] at h2 ⊢; omega⟩
    · simp only [Prod.mk.injEq] at h
      obtain ⟨-, rfl, rfl⟩ := h
      simp [Position.advanceCol]
      omega

/-- The number-literal loop keeps the line and advances the column once per
consumed character. -/
lemma number_literal_loop_pos :
    ∀ (chars num : List Char) (pos : Position) (a r : List Char) (q : Position),
      number_literal_loop num chars pos = (a, r, q) →
      q.line = pos.line ∧ q.column + r.length = pos.column + chars.length := by
  intro chars
  induction chars with
  | nil =>
    intro num pos a r q h
    simp only [number_literal_loop, Prod.mk.injEq] at h
    obtain ⟨-, rfl, rfl⟩ := h
    simp
  | cons c rest ih =>
    intro num pos a r q h
    rw [number_literal_loop] at h
    split at h
    · obtain ⟨h1, h2⟩ := ih _ pos.advanceCol a r q h
      exact ⟨by simpa [Position.advanceCol] using h1,
        by simp [Position.advanceCol] at h2 ⊢; omega⟩
    · simp only [Prod.mk.injEq] at h
      obtain ⟨-, rfl, rfl⟩ := h
      simp [Position.advanceCol]
      omega

/-- The string-literal loop keeps the line (it never calls `newline`, even on
a newline character) and advances the column once per consumed character. -/
lemma string_literal_loop_pos :
    ∀ (chars acc : List Char) (pos : Position) (a r : List Char) (q : Position),
      string_literal_loop acc chars pos = (a, r, q) →
      q.line = pos.line ∧ q.column + r.length = pos.column + chars.length := by
  intro chars
  induction chars with
  | nil =>
    intro acc pos a r q h
    simp only [string_literal_loop, Prod.mk.injEq] at h
    obtain ⟨-, rfl, rfl⟩ := h
    simp
  | cons c rest ih =>
    intro acc pos a r q h
    rw [string_literal_loop] at h
    split at h
    · rename_i hcl
      have hrest : rest ≠ [] := by
        intro hr
        rw [hr] at hcl
        simp at hcl
      simp only [Prod.mk.injEq] at h
      obtain ⟨-, rfl, rfl⟩ := h
      refine ⟨rfl, ?_⟩
      simp [Position.advanceCol, List.length_tail]
      have : 1 ≤ rest.length := List.length_pos.mpr hrest
      omega
    · obtain ⟨h1, h2⟩ := ih _ pos.advanceCol a r q h
      exact ⟨by simpa [Position.advanceCol] using h1,
        by simp [Position.advanceCol] at h2 ⊢; omega⟩

/-- Appending a non-`Eof` token preserves the no-`Eof` property. -/
lemma push_ne_eof {acc : List TokenMetadata} {t : TokenMetadata}
    (hacc : ∀ tm ∈ acc, tm.token ≠ .Eof) (ht : t.token ≠ .Eof) :
    ∀ tm ∈ acc ++ [t], tm.token ≠ .Eof := by
  intro tm hm
  rcases List.mem_append.mp hm with hm | hm
  · exact hacc tm hm
  · rw [List.mem_singleton.mp hm]
    exact ht

/-- The keyword table never yields `Eof`. -/
lemma keyword_table_ne_eof (s : String) : keyword_table s ≠ .Eof := by
  unfold keyword_table
  split <;> simp

/-- `scan_keyword_or_identifier` never yields `Eof`, keeps the line, advances
the column once per consumed character, and returns a suffix of its input. -/
lemma scan_keyword_spec {i : Char} {ch : List Char} {p : Position}
    {tok : Token} {r : List Char} {q : Position}
    (h : scan_keyword_or_identifier i ch p = (tok, r, q)) :
    tok ≠ .Eof ∧ q.line = p.line ∧ q.column + r.length = p.column + ch.length ∧
      r <:+ ch := by
  rw [scan_keyword_or_identifier] at h
  rcases hl : identifier_loop [i] ch p with ⟨a, r1, q1⟩
  rw [hl] at h
  simp only [Prod.mk.injEq] at h
  obtain ⟨h1, h2, h3⟩ := h
  subst h2; subst h3
  obtain ⟨x, y⟩ := identifier_loop_pos ch [i] p a r1 q1 hl
  have hs := identifier_loop_suffix ch [i] p
  rw [hl] at hs
  exact ⟨h1 ▸ keyword_table_ne_eof _, x, y, hs⟩

/-- A successful `scan_number_literal` yields a `Number` token (never `Eof`),
keeps the line, advances the column once per consumed character, and returns
a suffix of its input. -/
lemma scan_number_spec {i : Char} {ch : List Char} {p : Position}
    {tok : Token} {r : List Char} {q : Position}
    (h : scan_number_literal i ch p = .ok (tok, r, q)) :
    tok ≠ .Eof ∧ q.line = p.line ∧ q.column + r.length = p.column + ch.length ∧
      r <:+ ch := by
  rcases hl : number_literal_loop [i] ch p with ⟨a, r1, q1⟩
  rw [scan_number_literal] at h
  rw [hl] at h
  simp only [] at h
  split at h
  · simp only [Except.ok.injEq, Prod.mk.injEq] at h
    obtain ⟨h1, h2, h3⟩ := h
    subst h2; subst h3
    obtain ⟨x, y⟩ := number_literal_loop_pos ch [i] p a r1 q1 hl
    have hs := number_literal_loop_suffix ch [i] p
    rw [hl] at hs
    exact ⟨by rw [← h1]; simp, x, y, hs⟩
  · exact absurd h (by simp)

/-- `scan_string_literal` yields a `String` token (never `Eof`), keeps the
line, advances the column once per consumed character, and returns a suffix
of its input. -/
lemma scan_string_spec {ch : List Char} {p : Position}
    {tok : Token} {r : List Char} {q : Position}
    (h : scan_string_literal ch p = (tok, r, q)) :
    tok ≠ .Eof ∧ q.line = p.line ∧ q.column + r.length = p.column + ch.length ∧
      r <:+ ch := by
  rw [scan_string_literal] at h
  rcases hl : string_literal_loop [] ch p with ⟨a, r1, q1⟩
  rw [hl] at h
  simp only [Prod.mk.injEq] at h
  obtain ⟨h1, h2, h3⟩ := h
  subst h2; subst h3
  obtain ⟨x, y⟩ := string_literal_loop_pos ch [] p a r1 q1 hl
  have hs := string_literal_loop_suffix ch [] p
  rw [hl] at hs
  exact ⟨by rw [← h1]; simp, x, y, hs⟩

/-- One dispatch step of the scanner loop: on a nonempty input it either
fails with a `ScannerError`, or continues as the loop on a suffix of the tail
with tokens appended that are never `Eof`, the line preserved and the column
advanced once per consumed character (on newline-free input). -/
lemma tokensLoop_step (n : Nat) (c : Char) (rest : List Char) (pos : Position)
    (acc : List TokenMetadata) :
    (∃ e, tokensLoop (n + 1) (c :: rest) pos acc = some (.error e)) ∨
    (∃ rest1 pos1 acc1,
      tokensLoop (n + 1) (c :: rest) pos acc = tokensLoop n rest1 pos1 acc1 ∧
      rest1 <:+ rest ∧
      (∀ tm ∈ acc1, tm ∈ acc ∨ tm.token ≠ Token.Eof) ∧
      ('\n' ∉ c :: rest →
        pos1.line = pos.line ∧
          pos1.column + rest1.length = pos.column + (c :: rest).length)) := by
  rw [tokensLoop]
  by_cases h1 : (c == '\n') = true
  · rw [if_pos h1]
    refine Or.inr ⟨rest, pos.advanceCol.newline, acc, rfl, List.suffix_rfl,
      fun tm hm => Or.inl hm, fun hnl => ?_⟩
    exfalso
    apply hnl
    have hc : c = '\n' := by simpa using h1
    rw [hc]
    exact List.mem_cons_self _ _
  rw [if_neg h1]
  by_cases h2 : c.isWhitespace = true
  · rw [if_pos h2]
    refine Or.inr ⟨rest, pos.advanceCol, acc, rfl, List.suffix_rfl,
      fun tm hm => Or.inl hm, fun _ => ?_⟩
    refine ⟨by simp [Position.advanceCol], ?_⟩
    simp [Position.advanceCol]
    omega
  rw [if_neg h2]
  by_cases h3 : (c == '/' && rest.head? == some '/') = true
  · rw [if_pos h3]
    rcases hsc : scan_line_comment rest pos.advanceCol with ⟨rest1, pos2⟩
    have hsuf := scan_line_comment_suffix rest pos.advanceCol
    rw [hsc] at hsuf
    refine Or.inr ⟨rest1, pos2, acc, rfl, hsuf,
      fun tm hm => Or.inl hm, fun hnl => ?_⟩
    have hnr : '\n' ∉ rest := fun hm => hnl (List.mem_cons_of_mem _ hm)
    have hp := scan_line_comment_pos rest pos.advanceCol hnr
    rw [hsc] at hp
    simp only [Prod.mk.injEq] at hp
    obtain ⟨hr1, hp2⟩ := hp
    subst hr1
    subst hp2
    refine ⟨by simp [Position.advanceCol], ?_⟩
    simp [Position.advanceCol]
    omega
  rw [if_neg h3]
  by_cases h4 : (c == '/' && rest.head? == some '*') = true
  · rw [if_pos h4]
    rcases hsc : scan_multiline_comment rest pos.advanceCol with e | ⟨rest1, pos2⟩
    · exact Or.inl ⟨e, rfl⟩
    · have hsuf := scan_multiline_comment_suffix rest pos.advanceCol rest1 pos2 hsc
      refine Or.inr ⟨rest1, pos2, acc, rfl, hsuf,
        fun tm hm => Or.inl hm, fun hnl => ?_⟩
      have hnr : '\n' ∉ rest := fun hm => hnl (List.mem_cons_of_mem _ hm)
      obtain ⟨hl, hc2⟩ := scan_multiline_comment_pos rest pos.advanceCol rest1 pos2 hnr hsc
      refine ⟨by simpa [Position.advanceCol] using hl, ?_⟩
      simp [Position.advanceCol] at hc2 ⊢
      omega
  rw [if_neg h4]
  by_cases h5 : (c == '(') = true
  · rw [if_pos h5]
    refine Or.inr ⟨rest, pos.advanceCol, acc ++ [⟨Token.LeftParenthesis, pos.advanceCol⟩], rfl,
      List.suffix_rfl, ?_, fun _ => ?_⟩
    · intro tm hm
      rcases List.mem_append.mp hm with hm | hm
      · exact Or.inl hm
      · exact Or.inr (by rw [List.mem_singleton.mp hm]; simp)
    · refine ⟨by simp [Position.advanceCol], ?_⟩
      simp [Position.advanceCol]
      omega
  rw [if_neg h5]
  by_cases h6 : (c == ')') = true
  · rw [if_pos h6]
    refine Or.inr ⟨rest, pos.advanceCol, acc ++ [⟨Token.RightParenthesis, pos.advanceCol⟩], rfl,
      List.suffix_rfl, ?_, fun _ => ?_⟩
    · intro tm hm
      rcases List.mem_append.mp hm with hm | hm
      · exact Or.inl hm
      · exact Or.inr (by rw [List.mem_singleton.mp hm]; simp)
    · refine ⟨by simp [Position.advanceCol], ?_⟩
      simp [Position.advanceCol]
      omega
  rw [if_neg h6]
  by_cases h7 : (c == '\x7b') = true
  · rw [if_pos h7]
    refine Or.inr ⟨rest, pos.advanceCol, acc ++ [⟨Token.LeftBrace, pos.advanceCol⟩], rfl,
      List.suffix_rfl, ?_, fun _ => ?_⟩
    · intro tm hm
      rcases List.mem_append.mp hm with hm | hm
      · exact Or.inl hm
      · exact Or.inr (by rw [List.mem_singleton.mp hm]; simp)
    · refine ⟨by simp [Position.advanceCol], ?_⟩
      simp [Position.advanceCol]
      omega
  rw [if_neg h7]
  by_cases h8 : (c == '\x7d') = true
  · rw [if_pos h8]
    refine Or.inr ⟨rest, pos.advanceCol, acc ++ [⟨Token.RightBrace, pos.advanceCol⟩], rfl,
      List.suffix_rfl, ?_, fun _ => ?_⟩
    · intro tm hm
      rcases List.mem_append.mp hm with hm | hm
      · exact Or.inl hm
      · exact Or.inr (by rw [List.mem_singleton.mp hm]; simp)
    · refine ⟨by simp [Position.advanceCol], ?_⟩
      simp [Position.advanceCol]
      omega
  rw [if_neg h8]
  by_cases h9 : (c == ',') = true
  · rw [if_pos h9]
    refine Or.inr ⟨rest, pos.advanceCol, acc ++ [⟨Token.Comma, pos.advanceCol⟩], rfl,
      List.suffix_rfl, ?_, fun _ => ?_⟩
    · intro tm hm
      rcases List.mem_append.mp hm with hm | hm
      · exact Or.inl hm
      · exact Or.inr (by rw [List.mem_singleton.mp hm]; simp)
    · refine ⟨by simp [Position.advanceCol], ?_⟩
      simp [Position.advanceCol]
      omega
  rw [if_neg h9]
  by_cases h10 : (c == '.') = true
  · rw [if_pos h10]
    refine Or.inr ⟨rest, pos.advanceCol, acc ++ [⟨Token.Dot, pos.advanceCol⟩], rfl,
      List.suffix_rfl, ?_, fun _ => ?_⟩
    · intro tm hm
      rcases List.mem_append.mp hm with hm | hm
      · exact Or.inl hm
      · exact Or.inr (by rw [List.mem_singleton.mp hm]; simp)
    · refine ⟨by simp [Position.advanceCol], ?_⟩
      simp [Position.advanceCol]
      omega
  rw [if_neg h10]
  by_cases h11 : (c == '-') = true
  · rw [if_pos h11]
    refine Or.inr ⟨rest, pos.advanceCol, acc ++ [⟨Token.Minus, pos.advanceCol⟩], rfl,
      List.suffix_rfl, ?_, fun _ => ?_⟩
    · intro tm hm
      rcases List.mem_append.mp hm with hm | hm
      · exact Or.inl hm
      · exact Or.inr (by rw [List.mem_singleton.mp hm]; simp)
    · refine ⟨by simp [Position.advanceCol], ?_⟩
      simp [Position.advanceCol]
      omega
  rw [if_neg h11]
  by_cases h12 : (c == '+') = true
  · rw [if_pos h12]
    refine Or.inr ⟨rest, pos.advanceCol, acc ++ [⟨Token.Plus, pos.advanceCol⟩], rfl,
      List.suffix_rfl, ?_, fun _ => ?_⟩
    · intro tm hm
      rcases List.mem_append.mp hm with hm | hm
      · exact Or.inl hm
      · exact Or.inr (by rw [List.mem_singleton.mp hm]; simp)
    · refine ⟨by simp [Position.advanceCol], ?_⟩
      simp [Position.advanceCol]
      omega
  rw [if_neg h12]
  by_cases h13 : (c == ':') = true
  · rw [if_pos h13]
    refine Or.inr ⟨rest, pos.advanceCol, acc ++ [⟨Token.Colon, pos.advanceCol⟩], rfl,
      List.suffix_rfl, ?_, fun _ => ?_⟩
    · intro tm hm
      rcases List.mem_append.mp hm with hm | hm
      · exact Or.inl hm
      · exact Or.inr (by rw [List.mem_singleton.mp hm]; simp)
    · refine ⟨by simp [Position.advanceCol], ?_⟩
      simp [Position.advanceCol]
      omega
  rw [if_neg h13]
  by_cases h14 : (c == ';') = true
  · rw [if_pos h14]
    refine Or.inr ⟨rest, pos.advanceCol, acc ++ [⟨Token.Semicolon, pos.advanceCol⟩], rfl,
      List.suffix_rfl, ?_, fun _ => ?_⟩
    · intro tm hm
      rcases List.mem_append.mp hm with hm | hm
      · exact Or.inl hm
      · exact Or.inr (by rw [List.mem_singleton.mp hm]; simp)
    · refine ⟨by simp [Position.advanceCol], ?_⟩
      simp [Position.advanceCol]
      omega
  rw [if_neg h14]
  by_cases h15 : (c == '/') = true
  · rw [if_pos h15]
    refine Or.inr ⟨rest, pos.advanceCol, acc ++ [⟨Token.Slash, pos.advanceCol⟩], rfl,
      List.suffix_rfl, ?_, fun _ => ?_⟩
    · intro tm hm
      rcases List.mem_append.mp hm with hm | hm
      · exact Or.inl hm
      · exact Or.inr (by rw [List.mem_singleton.mp hm]; simp)
    · refine ⟨by simp [Position.advanceCol], ?_⟩
      simp [Position.advanceCol]
      omega
  rw [if_neg h15]
  by_cases h16 : (c == '*') = true
  · rw [if_pos h16]
    refine Or.inr ⟨rest, pos.advanceCol, acc ++ [⟨Token.Star, pos.advanceCol⟩], rfl,
      List.suffix_rfl, ?_, fun _ => ?_⟩
    · intro tm hm
      rcases List.mem_append.mp hm with hm | hm
      · exact Or.inl hm
      · exact Or.inr (by rw [List.mem_singleton.mp hm]; simp)
    · refine ⟨by simp [Position.advanceCol], ?_⟩
      simp [Position.advanceCol]
      omega
  rw [if_neg h16]
  by_cases h17 : (c == '?') = true
  · rw [if_pos h17]
    refine Or.inr ⟨rest, pos.advanceCol, acc ++ [⟨Token.Question, pos.advanceCol⟩], rfl,
      List.suffix_rfl, ?_, fun _ => ?_⟩
    · intro tm hm
      rcases List.mem_append.mp hm with hm | hm
      · exact Or.inl hm
      · exact Or.inr (by rw [List.mem_singleton.mp hm]; simp)
    · refine ⟨by simp [Position.advanceCol], ?_⟩
      simp [Position.advanceCol]
      omega
  rw [if_neg h17]
  by_cases h18 : (c == '!' && rest.head? == some '=') = true
  · rw [if_pos h18]
    have hrest : rest ≠ [] := by
      intro hr
      rw [hr] at h18
      simp at h18
    refine Or.inr ⟨rest.tail, pos.advanceCol.advanceCol,
      acc ++ [⟨Token.BangEqual, pos.advanceCol⟩], rfl, List.tail_suffix rest, ?_, fun _ => ?_⟩
    · intro tm hm
      rcases List.mem_append.mp hm with hm | hm
      · exact Or.inl hm
      · exact Or.inr (by rw [List.mem_singleton.mp hm]; simp)
    · have hlen : rest.length = rest.tail.length + 1 := by
        cases rest with
        | nil => exact absurd rfl hrest
        | cons a l => simp
      refine ⟨by simp [Position.advanceCol], ?_⟩
      simp [Position.advanceCol]
      omega
  rw [if_neg h18]
  by_cases h19 : (c == '=' && rest.head? == some '=') = true
  · rw [if_pos h19]
    have hrest : rest ≠ [] := by
      intro hr
      rw [hr] at h19
      simp at h19
    refine Or.inr ⟨rest.tail, pos.advanceCol.advanceCol,
      acc ++ [⟨Token.EqualEqual, pos.advanceCol⟩], rfl, List.tail_suffix rest, ?_, fun _ => ?_⟩
    · intro tm hm
      rcases List.mem_append.mp hm with hm | hm
      · exact Or.inl hm
      · exact Or.inr (by rw [List.mem_singleton.mp hm]; simp)
    · have hlen : rest.length = rest.tail.length + 1 := by
        cases rest with
        | nil => exact absurd rfl hrest
        | cons a l => simp
      refine ⟨by simp [Position.advanceCol], ?_⟩
      simp [Position.advanceCol]
      omega
  rw [if_neg h19]
  by_cases h20 : (c == '>' && rest.head? == some '=') = true
  · rw [if_pos h20]
    have hrest : rest ≠ [] := by
      intro hr
      rw [hr] at h20
      simp at h20
    refine Or.inr ⟨rest.tail, pos.advanceCol.advanceCol,
      acc ++ [⟨Token.GreaterEqual, pos.advanceCol⟩], rfl, List.tail_suffix rest, ?_, fun _ => ?_⟩
    · intro tm hm
      rcases List.mem_append.mp hm with hm | hm
      · exact Or.inl hm
      · exact Or.inr (by rw [List.mem_singleton.mp hm]; simp)
    · have hlen : rest.length = rest.tail.length + 1 := by
        cases rest with
        | nil => exact absurd rfl hrest
        | cons a l => simp
      refine ⟨by simp [Position.advanceCol], ?_⟩
      simp [Position.advanceCol]
      omega
  rw [if_neg h20]
  by_cases h21 : (c == '<' && rest.head? == some '=') = true
  · rw [if_pos h21]
    have hrest : rest ≠ [] := by
      intro hr
      rw [hr] at h21
      simp at h21
    refine Or.inr ⟨rest.tail, pos.advanceCol.advanceCol,
      acc ++ [⟨Token.LessEqual, pos.advanceCol⟩], rfl, List.tail_suffix rest, ?_, fun _ => ?_⟩
    · intro tm hm
      rcases List.mem_append.mp hm with hm | hm
      · exact Or.inl hm
      · exact Or.inr (by rw [List.mem_singleton.mp hm]; simp)
    · have hlen : rest.length = rest.tail.length + 1 := by
        cases rest with
        | nil => exact absurd rfl hrest
        | cons a l => simp
      refine ⟨by simp [Position.advanceCol], ?_⟩
      simp [Position.advanceCol]
      omega
  rw [if_neg h21]
  by_cases h22 : (c == '&' && rest.head? == some '&') = true
  · rw [if_pos h22]
    have hrest : rest ≠ [] := by
      intro hr
      rw [hr] at h22
      simp at h22
    refine Or.inr ⟨rest.tail, pos.advanceCol.advanceCol,
      acc ++ [⟨Token.And, pos.advanceCol⟩], rfl, List.tail_suffix rest, ?_, fun _ => ?_⟩
    · intro tm hm
      rcases List.mem_append.mp hm with hm | hm
      · exact Or.inl hm
      · exact Or.inr (by rw [List.mem_singleton.mp hm]; simp)
    · have hlen : rest.length = rest.tail.length + 1 := by
        cases rest with
        | nil => exact absurd rfl hrest
        | cons a l => simp
      refine ⟨by simp [Position.advanceCol], ?_⟩
      simp [Position.advanceCol]
      omega
  rw [if_neg h22]
  by_cases h23 : (c == '|' && rest.head? == some '|') = true
  · rw [if_pos h23]
    have hrest : rest ≠ [] := by
      intro hr
      rw [hr] at h23
      simp at h23
    refine Or.inr ⟨rest.tail, pos.advanceCol.advanceCol,
      acc ++ [⟨Token.Or, pos.advanceCol⟩], rfl, List.tail_suffix rest, ?_, fun _ => ?_⟩
    · intro tm hm
      rcases List.mem_append.mp hm with hm | hm
      · exact Or.inl hm
      · exact Or.inr (by rw [List.mem_singleton.mp hm]; simp)
    · have hlen : rest.length = rest.tail.length + 1 := by
        cases rest with
        | nil => exact absurd rfl hrest
        | cons a l => simp
      refine ⟨by simp [Position.advanceCol], ?_⟩
      simp [Position.advanceCol]
      omega
  rw [if_neg h23]
  by_cases h24 : (c == '!') = true
  · rw [if_pos h24]
    refine Or.inr ⟨rest, pos.advanceCol, acc ++ [⟨Token.Bang, pos.advanceCol⟩], rfl,
      List.suffix_rfl, ?_, fun _ => ?_⟩
    · intro tm hm
      rcases List.mem_append.mp hm with hm | hm
      · exact Or.inl hm
      · exact Or.inr (by rw [List.mem_singleton.mp hm]; simp)
    · refine ⟨by simp [Position.advanceCol], ?_⟩
      simp [Position.advanceCol]
      omega
  rw [if_neg h24]
  by_cases h25 : (c == '=') = true
  · rw [if_pos h25]
    refine Or.inr ⟨rest, pos.advanceCol, acc ++ [⟨Token.Equal, pos.advanceCol⟩], rfl,
      List.suffix_rfl, ?_, fun _ => ?_⟩
    · intro tm hm
      rcases List.mem_append.mp hm with hm | hm
      · exact Or.inl hm
      · exact Or.inr (by rw [List.mem_singleton.mp hm]; simp)
    · refine ⟨by simp [Position.advanceCol], ?_⟩
      simp [Position.advanceCol]
      omega
  rw [if_neg h25]
  by_cases h26 : (c == '>') = true
  · rw [if_pos h26]
    refine Or.inr ⟨rest, pos.advanceCol, acc ++ [⟨Token.Greater, pos.advanceCol⟩], rfl,
      List.suffix_rfl, ?_, fun _ => ?_⟩
    · intro tm hm
      rcases List.mem_append.mp hm with hm | hm
      · exact Or.inl hm
      · exact Or.inr (by rw [List.mem_singleton.mp hm]; simp)
    · refine ⟨by simp [Position.advanceCol], ?_⟩
      simp [Position.advanceCol]
      omega
  rw [if_neg h26]
  by_cases h27 : (c == '<') = true
  · rw [if_pos h27]
    refine Or.inr ⟨rest, pos.advanceCol, acc ++ [⟨Token.Less, pos.advanceCol⟩], rfl,
      List.suffix_rfl, ?_, fun _ => ?_⟩
    · intro tm hm
      rcases List.mem_append.mp hm with hm | hm
      · exact Or.inl hm
      · exact Or.inr (by rw [List.mem_singleton.mp hm]; simp)
    · refine ⟨by simp [Position.advanceCol], ?_⟩
      simp [Position.advanceCol]
      omega
  rw [if_neg h27]
  by_cases h28 : c.isAlpha = true
  · rw [if_pos h28]
    rcases hsc : scan_keyword_or_identifier c rest pos.advanceCol with ⟨tok, rest1, pos2⟩
    obtain ⟨hne, hl, hc2, hsuf⟩ := scan_keyword_spec hsc
    refine Or.inr ⟨rest1, pos2, acc ++ [⟨tok, pos.advanceCol⟩], rfl, hsuf, ?_,
      fun _ => ?_⟩
    · intro tm hm
      rcases List.mem_append.mp hm with hm | hm
      · exact Or.inl hm
      · exact Or.inr (by rw [List.mem_singleton.mp hm]; exact hne)
    · refine ⟨by simpa [Position.advanceCol] using hl, ?_⟩
      simp [Position.advanceCol] at hc2 ⊢
      omega
  rw [if_neg h28]
  by_cases h29 : c.isDigit = true
  · rw [if_pos h29]
    rcases hsc : scan_number_literal c rest pos.advanceCol with e | ⟨tok, rest1, pos2⟩
    · exact Or.inl ⟨e, rfl⟩
    · obtain ⟨hne, hl, hc2, hsuf⟩ := scan_number_spec hsc
      refine Or.inr ⟨rest1, pos2, acc ++ [⟨tok, pos.advanceCol⟩], rfl, hsuf, ?_,
        fun _ => ?_⟩
      · intro tm hm
        rcases List.mem_append.mp hm with hm | hm
        · exact Or.inl hm
        · exact Or.inr (by rw [List.mem_singleton.mp hm]; exact hne)
      · refine ⟨by simpa [Position.advanceCol] using hl, ?_⟩
        simp [Position.advanceCol] at hc2 ⊢
        omega
  rw [if_neg h29]
  by_cases h30 : (c == '"') = true
  · rw [if_pos h30]
    rcases hsc : scan_string_literal rest pos.advanceCol with ⟨tok, rest1, pos2⟩
    obtain ⟨hne, hl, hc2, hsuf⟩ := scan_string_spec hsc
    refine Or.inr ⟨rest1, pos2, acc ++ [⟨tok, pos.advanceCol⟩], rfl, hsuf, ?_,
      fun _ => ?_⟩
    · intro tm hm
      rcases List.mem_append.mp hm with hm | hm
      · exact Or.inl hm
      · exact Or.inr (by rw [List.mem_singleton.mp hm]; exact hne)
    · refine ⟨by simpa [Position.advanceCol] using hl, ?_⟩
      simp [Position.advanceCol] at hc2 ⊢
      omega
  rw [if_neg h30]
  exact Or.inl ⟨.UnexpectedToken pos.advanceCol, rfl⟩


/-- The dispatch loop never emits an `Eof` token. -/
lemma tokensLoop_no_eof :
    ∀ (fuel : Nat) (chars : List Char) (pos : Position)
      (acc ts : List TokenMetadata) (p : Position),
      tokensLoop fuel chars pos acc = some (.ok (ts, p)) →
      (∀ tm ∈ acc, tm.token ≠ .Eof) → ∀ tm ∈ ts, tm.token ≠ .Eof := by
  intro fuel
  induction fuel with
  | zero =>
    intro chars pos acc ts p h
    exact absurd h (by simp [tokensLoop])
  | succ n ih =>
    intro chars pos acc ts p h hacc
    cases chars with
    | nil =>
      rw [tokensLoop] at h
      simp only [Option.some.injEq, Except.ok.injEq, Prod.mk.injEq] at h
      exact h.1 ▸ hacc
    | cons c rest =>
      rcases tokensLoop_step n c rest pos acc with ⟨e, hstep⟩ |
        ⟨rest1, pos1, acc1, hstep, hsuf, haccs, hcol⟩
      · rw [hstep] at h
        exact absurd h (by simp)
      · rw [hstep] at h
        exact ih _ _ _ _ _ h (fun tm hm => (haccs tm hm).elim (hacc tm) id)

/-- On newline-free input, a successful run of the dispatch loop ends with
the line unchanged and the column advanced once per input character. -/
lemma tokensLoop_pos :
    ∀ (fuel : Nat) (chars : List Char) (pos : Position)
      (acc ts : List TokenMetadata) (p : Position), '\n' ∉ chars →
      tokensLoop fuel chars pos acc = some (.ok (ts, p)) →
      p.line = pos.line ∧ p.column = pos.column + chars.length := by
  intro fuel
  induction fuel with
  | zero =>
    intro chars pos acc ts p _ h
    exact absurd h (by simp [tokensLoop])
  | succ n ih =>
    intro chars pos acc ts p hnl h
    cases chars with
    | nil =>
      rw [tokensLoop] at h
      simp only [Option.some.injEq, Except.ok.injEq, Prod.mk.injEq] at h
      obtain ⟨-, h2⟩ := h
      rw [← h2]
      simp
    | cons c rest =>
      rcases tokensLoop_step n c rest pos acc with ⟨e, hstep⟩ |
        ⟨rest1, pos1, acc1, hstep, hsuf, -, hcol⟩
      · rw [hstep] at h
        exact absurd h (by simp)
      · rw [hstep] at h
        have hnr1 : '\n' ∉ rest1 := fun hm =>
          hnl (List.mem_cons_of_mem _ (hsuf.subset hm))
        obtain ⟨hl2, hc2⟩ := ih _ _ _ _ _ hnr1 h
        obtain ⟨hl1, hc1⟩ := hcol hnl
        refine ⟨by rw [hl2, hl1], ?_⟩
        rw [hc2]
        omega

/-- Fuel one beyond the input length never runs out: the dispatch loop
consumes at least one character per iteration. -/
lemma tokensLoop_isSome :
    ∀ (fuel : Nat) (chars : List Char) (pos : Position) (acc : List TokenMetadata),
      chars.length < fuel → tokensLoop fuel chars pos acc ≠ none := by
  intro fuel
  induction fuel with
  | zero =>
    intro chars pos acc h
    exact absurd h (by omega)
  | succ n ih =>
    intro chars pos acc hlen h
    cases chars with
    | nil =>
      rw [tokensLoop] at h
      simp at h
    | cons c rest =>
      rcases tokensLoop_step n c rest pos acc with ⟨e, hstep⟩ |
        ⟨rest1, pos1, acc1, hstep, hsuf, -, -⟩
      · rw [hstep] at h
        simp at h
      · rw [hstep] at h
        refine absurd h (ih _ _ _ ?_)
        have := hsuf.length_le
        simp only [List.length_cons] at hlen
        omega

/-- `tokenize` always terminates: the entry point supplies enough fuel. -/
lemma stringTokens_ne_none (code : String) : stringTokens code ≠ none := by
  rw [stringTokens]
  rcases hl : tokensLoop (code.data.length + 1) code.data ⟨1, 0⟩ [] with - | r
  · exact absurd hl (tokensLoop_isSome _ _ _ _ (by omega))
  · rcases r with e | ⟨acc, pos⟩ <;> simp

/-- C5: on every input on which `tokenize` succeeds — the empty string
included — the token sequence ends with an `Eof` token, no earlier token is
`Eof`, and on single-line (newline-free) input the `Eof` sits at line 1,
column `length + 1`: one column past the last consumed character. -/
theorem claim_c5_eof_invariant (s : String) (ts : List TokenMetadata)
    (h : stringTokens s = some (.ok ts)) :
    ∃ p, ts.getLast? = some ⟨.Eof, p⟩ ∧
      (∀ tm ∈ ts.dropLast, tm.token ≠ .Eof) ∧
      ('\n' ∉ s.data → p = ⟨1, s.data.length + 1⟩) := by
  rw [stringTokens] at h
  rcases hl : tokensLoop (s.data.length + 1) s.data ⟨1, 0⟩ [] with - | r
  · rw [hl] at h
    simp at h
  · rcases r with e | ⟨acc, pos⟩
    · rw [hl] at h
      simp at h
    · rw [hl] at h
      simp only [Option.some.injEq, Except.ok.injEq] at h
      subst h
      refine ⟨pos.advanceCol, by rw [List.getLast?_concat], ?_, ?_⟩
      · rw [List.dropLast_concat]
        exact tokensLoop_no_eof _ _ _ _ _ _ hl (by simp)
      · intro hnl
        obtain ⟨hline, hcol⟩ := tokensLoop_pos _ _ _ _ _ _ hnl hl
        simp [Position.advanceCol, hline, hcol]

/-- C5 witness: the theorem applied to the empty input. -/
theorem claim_c5_witness :
    ∃ p, ([⟨Token.Eof, ⟨1, 1⟩⟩] : List TokenMetadata).getLast? = some ⟨.Eof, p⟩ ∧
      (∀ tm ∈ ([⟨Token.Eof, ⟨1, 1⟩⟩] : List TokenMetadata).dropLast,
        tm.token ≠ .Eof) ∧
      ('\n' ∉ "".data → p = ⟨1, "".data.length + 1⟩) :=
  claim_c5_eof_invariant "" [⟨.Eof, ⟨1, 1⟩⟩] rfl

/-- C3: the spec (and the repository's own parser test) expect `"1+2*3"` to
print as `"(+ 1 (* 2 3))"`, but `Scanner::scan_number_literal` pushes the
character after the single-digit literal `1` (the `+`) into the number text
before checking the lookahead, so tokenisation fails with
`NumberLiteralParsingError` at the literal's start `1:1`.  On the token
sequence the claim intends, parser and printer do produce `"(+ 1 (* 2 3))"`
with multiplication binding tighter than addition. -/
theorem claim_c3_number_scan_bug :
    stringTokens "1+2*3" = some (.error (.NumberLiteralParsingError ⟨1, 1⟩)) ∧
    Parser.parse
        [⟨.Number "1", ⟨1, 1⟩⟩, ⟨.Plus, ⟨1, 2⟩⟩, ⟨.Number "2", ⟨1, 3⟩⟩,
          ⟨.Star, ⟨1, 4⟩⟩, ⟨.Number "3", ⟨1, 5⟩⟩, ⟨.Eof, ⟨1, 6⟩⟩] =
      some (.ok (.Binary (.Literal (.Number "1")) .Plus
        (.Binary (.Literal (.Number "2")) .Star (.Literal (.Number "3"))))) ∧
    printExpr (.Binary (.Literal (.Number "1")) .Plus
        (.Binary (.Literal (.Number "2")) .Star (.Literal (.Number "3")))) =
      .ok "(+ 1 (* 2 3))" :=
  ⟨rfl, rfl, rfl⟩

/-- C7: the claim's `"*1"` half holds — the pipeline fails with
`ParserError::Unexpected` and no tree is returned — but on `"(1+2"` the same
single-digit scanner slip as in C3 makes tokenisation fail with
`NumberLiteralParsingError` at `1:2` before the parser ever runs.  On the
token sequence `( 1 + 2 EOF` that the claim intends, the parser does fail
with `ParserError::Consume`. -/
theorem claim_c7_malformed_inputs :
    stringTokens "(1+2" = some (.error (.NumberLiteralParsingError ⟨1, 2⟩)) ∧
    pipeline "*1" = some (.error (.ParserError .Unexpected)) ∧
    Parser.parse
        [⟨.LeftParenthesis, ⟨1, 1⟩⟩, ⟨.Number "1", ⟨1, 2⟩⟩, ⟨.Plus, ⟨1, 3⟩⟩,
          ⟨.Number "2", ⟨1, 4⟩⟩, ⟨.Eof, ⟨1, 5⟩⟩] =
      some (.error .Consume) :=
  ⟨rfl, rfl, rfl⟩

/-- C1 counterexample: `"true"` is syntactically valid — `tokenize` and
`parse` both succeed — yet the composition errors with `AstPrinterError`,
because `visit_literal` accepts only `String` and `Number` tokens; so
`print(parse(tokenize(s)))` does not return `Ok` for every valid `s`. -/
theorem claim_c1_counterexample :
    stringTokens "true" =
      some (.ok [⟨.True, ⟨1, 1⟩⟩, ⟨.Eof, ⟨1, 5⟩⟩]) ∧
    Parser.parse [⟨.True, ⟨1, 1⟩⟩, ⟨.Eof, ⟨1, 5⟩⟩] = some (.ok (.Literal .True)) ∧
    pipeline "true" = some (.error .AstPrinterError) :=
  ⟨rfl, rfl, rfl⟩

/-- C2 counterexample: scanning `"/* no end"` does fail with
`UnterminatedMultilineComment`, but the reported position is `1:9` — the last
consumed character, where input was exhausted — not the comment's opening
`/*` at `1:1` (`scan_multiline_comment` never records the start position). -/
theorem claim_c2_counterexample :
    stringTokens "/* no end" =
      some (.error (.UnterminatedMultilineComment ⟨1, 9⟩)) ∧
    (⟨1, 9⟩ : Position) ≠ ⟨1, 1⟩ :=
  ⟨rfl, by decide⟩

/-- C4 counterexample: `"!1"` tokenizes and parses successfully to
`Unary(Bang, 1)` — a tree the parser certainly produces — yet `visit_unary`
accepts only `-` and fails with `AstPrinterError`, so the printer rejects
parser-producible trees. -/
theorem claim_c4_counterexample :
    stringTokens "!1" =
      some (.ok [⟨.Bang, ⟨1, 1⟩⟩, ⟨.Number "1", ⟨1, 2⟩⟩, ⟨.Eof, ⟨1, 3⟩⟩]) ∧
    Parser.parse [⟨.Bang, ⟨1, 1⟩⟩, ⟨.Number "1", ⟨1, 2⟩⟩, ⟨.Eof, ⟨1, 3⟩⟩] =
      some (.ok (.Unary .Bang (.Literal (.Number "1")))) ∧
    printExpr (.Unary .Bang (.Literal (.Number "1"))) = .error .AstPrinterError :=
  ⟨rfl, rfl, rfl⟩

/-- C6 counterexample: scanning the two-character input `""` yields a
`String` token whose payload is one double-quote character, not the empty
enclosed text — `scan_string_literal` pushes the consumed character before
checking the lookahead for the closing quote, so the closing quote of an
empty literal becomes its own content. -/
theorem claim_c6_counterexample :
    stringTokens "\"\"" =
      some (.ok [⟨.String "\"", ⟨1, 1⟩⟩, ⟨.Eof, ⟨1, 3⟩⟩]) ∧
    ("\"" : String) ≠ "" :=
  ⟨rfl, by decide⟩

/-- `parenthesize` with one operand succeeds exactly when the operand does. -/
lemma parenthesize1_isOk (name : String) (r : Except ScriptError String) :
    (parenthesize1 name r).isOk = r.isOk := by
  cases r <;> simp [parenthesize1, Except.isOk, Except.toBool]

/-- `parenthesize` with two operands succeeds exactly when both operands do. -/
lemma parenthesize2_isOk (name : String) (r1 r2 : Except ScriptError String) :
    (parenthesize2 name r1 r2).isOk = (r1.isOk && r2.isOk) := by
  cases r1 <;> cases r2 <;> simp [parenthesize2, Except.isOk, Except.toBool]

/-- `isOk` on a concrete `error`. -/
lemma isOk_error (e : ScriptError) :
    (Except.error e : Except ScriptError String).isOk = false := rfl

/-- `isOk` on a concrete `ok`. -/
lemma isOk_ok (s : String) :
    (Except.ok s : Except ScriptError String).isOk = true := rfl

/-- The printer succeeds exactly on the trees in `printerSupported`: unary
operator `-`, binary operator `+`/`-`/`*`, literals `Number`/`String`. -/
lemma printExpr_isOk_iff :
    ∀ e : Expression, (printExpr e).isOk = true ↔ printerSupported e = true := by
  intro e
  induction e with
  | Unary operator right ih =>
    cases operator <;>
      simp [printExpr, printerSupported, parenthesize1_isOk, isOk_error, ih]
  | Binary left operator right ihl ihr =>
    cases operator <;>
      simp [printExpr, printerSupported, parenthesize2_isOk, isOk_error, ihl, ihr]
  | Grouping group ih =>
    simp [printExpr, printerSupported, parenthesize1_isOk, ih]
  | Literal literal =>
    cases literal <;> simp [printExpr, printerSupported, isOk_error, isOk_ok]

/-- C4 (amended): the printer validates node-locally, but its accepted subset
is narrower than what the parser can produce: `print` succeeds precisely on
trees whose every `Unary` operator is `-`, every `Binary` operator is `+`,
`-` or `*`, and every `Literal` is a `Number` or `String` token.  Trees the
parser produces with `!`, `/`, comparison or equality operators, or
`true`/`false`/`null` literals, are rejected with `AstPrinterError` (see the
counterexample). -/
theorem claim_c4_printer_ok_iff_supported (e : Expression) :
    (∃ s, printExpr e = .ok s) ↔ printerSupported e = true := by
  rw [← printExpr_isOk_iff e]
  cases h : printExpr e <;> simp [Except.isOk, Except.toBool]

/-- C1 (amended): the composition succeeds on every syntactically valid
source whose parse tree lies in the printer-supported subset, and the whole
pipeline is a pure function of the source text (determinism). -/
theorem claim_c1_pipeline_ok_and_deterministic :
    (∀ (s : String) (ts : List TokenMetadata) (e : Expression),
      stringTokens s = some (.ok ts) → Parser.parse ts = some (.ok e) →
      printerSupported e = true → ∃ out, pipeline s = some (.ok out)) ∧
    (∀ s1 s2 : String, s1 = s2 → pipeline s1 = pipeline s2) := by
  constructor
  · intro s ts e hts hp hsupp
    have hok : (printExpr e).isOk = true := (printExpr_isOk_iff e).mpr hsupp
    rcases hpr : printExpr e with err | out
    · rw [hpr] at hok
      simp [Except.isOk, Except.toBool] at hok
    · refine ⟨out, ?_⟩
      simp [pipeline, hts, hp, hpr]
  · intro s1 s2 h
    rw [h]

/-- C1 witness: the amended theorem applied to the source `123`. -/
theorem claim_c1_witness :
    (stringTokens "123" = some (.ok [⟨.Number "123", ⟨1, 1⟩⟩, ⟨.Eof, ⟨1, 4⟩⟩]) ∧
      Parser.parse [⟨.Number "123", ⟨1, 1⟩⟩, ⟨.Eof, ⟨1, 4⟩⟩] =
        some (.ok (.Literal (.Number "123"))) ∧
      printerSupported (.Literal (.Number "123")) = true) ∧
    (∃ out, pipeline "123" = some (.ok out)) ∧ pipeline "123" = pipeline "123" :=
  ⟨⟨rfl, rfl, rfl⟩,
    claim_c1_pipeline_ok_and_deterministic.1 "123" _ _ rfl rfl rfl,
    claim_c1_pipeline_ok_and_deterministic.2 "123" "123" rfl⟩


/-- `check` evaluated at a cursor that holds a known token. -/
lemma check_of_get? {tks : List TokenMetadata} {c : Nat} {tm : TokenMetadata}
    (h : tks.get? c = some tm) (t : Token) :
    Parser.check tks t c = (!(tm.token == .Eof) && (tm.token == t)) := by
  rw [Parser.check, Parser.is_at_end, Parser.peek, h]
  cases he : (tm.token == Token.Eof) <;> simp [he, Option.any]

/-- `check` is `false` past the end of the token list. -/
lemma check_of_get?_none {tks : List TokenMetadata} {c : Nat}
    (h : tks.get? c = none) (t : Token) : Parser.check tks t c = false := by
  rw [Parser.check, Parser.is_at_end, Parser.peek, h]
  simp [Option.any]

/-- Indexing just past a prefix reads the head of the rest. -/
lemma get?_append_len {α : Type} (pre l : List α) :
    (pre ++ l).get? pre.length = l.head? := by
  rw [List.get?_append_right (le_refl _)]
  simp [List.get?_eq_getElem?, List.head?_eq_getElem?]

/-- Indexing at an offset past a prefix reads into the rest. -/
lemma get?_append_len_add {α : Type} (pre l : List α) (n : Nat) :
    (pre ++ l).get? (pre.length + n) = l.get? n := by
  rw [List.get?_append_right (Nat.le_add_right _ _)]
  simp

/-- `primary` at a `Number` token: the keyword matches fail, the peek sees
the number, and the cursor advances once. -/
lemma primary_at_number {tks : List TokenMetadata} {c : Nat} {tm : TokenMetadata}
    {x : String} (h : tks.get? c = some tm) (hx : tm.token = .Number x) (fuel : Nat) :
    Parser.primary tks c (fuel + 1) = some (.ok (.Literal (.Number x), c + 1)) := by
  have h' : tks[c]? = some tm := by simpa [← List.get?_eq_getElem?] using h
  have hch : ∀ t : Token, Parser.check tks t c =
      (!(Token.Number x == Token.Eof) && (Token.Number x == t)) := by
    intro t
    rw [check_of_get? h t, hx]
  rw [Parser.primary]
  simp [Parser.matchesTk, hch, Parser.peek, h, h', hx]

/-- `unary` at a `Number` token falls through to `primary`. -/
lemma unary_at_number {tks : List TokenMetadata} {c : Nat} {tm : TokenMetadata}
    {x : String} (h : tks.get? c = some tm) (hx : tm.token = .Number x) (fuel : Nat) :
    Parser.unary tks c (fuel + 2) = some (.ok (.Literal (.Number x), c + 1)) := by
  have hb : Parser.check tks .Bang c = false := by
    rw [check_of_get? h .Bang, hx]
    simp
  have hm : Parser.check tks .Minus c = false := by
    rw [check_of_get? h .Minus, hx]
    simp
  rw [Parser.unary]
  simp only [Parser.matchesTk, hb, hm, Bool.false_eq_true, if_false]
  exact primary_at_number h hx fuel

/-- The factor loop exits immediately when the current token is neither `/`
nor `*`. -/
lemma factor_fold_exit {tks : List TokenMetadata} {e : Expression} {c : Nat}
    (h1 : Parser.check tks .Slash c = false) (h2 : Parser.check tks .Star c = false)
    (fuel : Nat) :
    Parser.factor_fold tks e c (fuel + 1) = some (.ok (e, c)) := by
  rw [Parser.factor_fold]
  simp only [Parser.matchesTk, h1, h2, Bool.false_eq_true, if_false]

/-- The term loop exits immediately when the current token is neither `-`
nor `+`. -/
lemma term_fold_exit {tks : List TokenMetadata} {e : Expression} {c : Nat}
    (h1 : Parser.check tks .Minus c = false) (h2 : Parser.check tks .Plus c = false)
    (fuel : Nat) :
    Parser.term_fold tks e c (fuel + 1) = some (.ok (e, c)) := by
  rw [Parser.term_fold]
  simp only [Parser.matchesTk, h1, h2, Bool.false_eq_true, if_false]

/-- The comparison loop exits immediately when the current token is none of
`>`, `>=`, `<`, `<=`. -/
lemma comparison_fold_exit {tks : List TokenMetadata} {e : Expression} {c : Nat}
    (h1 : Parser.check tks .Greater c = false)
    (h2 : Parser.check tks .GreaterEqual c = false)
    (h3 : Parser.check tks .Less c = false)
    (h4 : Parser.check tks .LessEqual c = false) (fuel : Nat) :
    Parser.comparison_fold tks e c (fuel + 1) = some (.ok (e, c)) := by
  rw [Parser.comparison_fold]
  simp only [Parser.matchesTk, h1, h2, h3, h4, Bool.false_eq_true, if_false]

/-- The equality loop exits immediately when the current token is neither
`!=` nor `==`. -/
lemma equality_fold_exit {tks : List TokenMetadata} {e : Expression} {c : Nat}
    (h1 : Parser.check tks .BangEqual c = false)
    (h2 : Parser.check tks .EqualEqual c = false) (fuel : Nat) :
    Parser.equality_fold tks e c (fuel + 1) = some (.ok (e, c)) := by
  rw [Parser.equality_fold]
  simp only [Parser.matchesTk, h1, h2, Bool.false_eq_true, if_false]

/-- `factor` at a `Number` token not followed by `/` or `*`. -/
lemma factor_at_number {tks : List TokenMetadata} {c : Nat} {tm : TokenMetadata}
    {x : String} (h : tks.get? c = some tm) (hx : tm.token = .Number x)
    (hS : Parser.check tks .Slash (c + 1) = false)
    (hT : Parser.check tks .Star (c + 1) = false) (fuel : Nat) :
    Parser.factor tks c (fuel + 3) = some (.ok (.Literal (.Number x), c + 1)) := by
  rw [Parser.factor]
  rw [unary_at_number h hx fuel]
  exact factor_fold_exit hS hT (fuel + 1)

/-- `term` at a `Number` token not followed by `/`, `*`, `-` or `+`. -/
lemma term_at_number {tks : List TokenMetadata} {c : Nat} {tm : TokenMetadata}
    {x : String} (h : tks.get? c = some tm) (hx : tm.token = .Number x)
    (hS : Parser.check tks .Slash (c + 1) = false)
    (hT : Parser.check tks .Star (c + 1) = false)
    (hM : Parser.check tks .Minus (c + 1) = false)
    (hP : Parser.check tks .Plus (c + 1) = false) (fuel : Nat) :
    Parser.term tks c (fuel + 4) = some (.ok (.Literal (.Number x), c + 1)) := by
  rw [Parser.term]
  rw [factor_at_number h hx hS hT fuel]
  exact term_fold_exit hM hP (fuel + 2)

/-- `comparison` at a `Number` token not followed by any factor, term or
comparison operator. -/
lemma comparison_at_number {tks : List TokenMetadata} {c : Nat} {tm : TokenMetadata}
    {x : String} (h : tks.get? c = some tm) (hx : tm.token = .Number x)
    (hS : Parser.check tks .Slash (c + 1) = false)
    (hT : Parser.check tks .Star (c + 1) = false)
    (hM : Parser.check tks .Minus (c + 1) = false)
    (hP : Parser.check tks .Plus (c + 1) = false)
    (hG : Parser.check tks .Greater (c + 1) = false)
    (hGE : Parser.check tks .GreaterEqual (c + 1) = false)
    (hL : Parser.check tks .Less (c + 1) = false)
    (hLE : Parser.check tks .LessEqual (c + 1) = false) (fuel : Nat) :
    Parser.comparison tks c (fuel + 5) = some (.ok (.Literal (.Number x), c + 1)) := by
  rw [Parser.comparison]
  rw [term_at_number h hx hS hT hM hP fuel]
  exact comparison_fold_exit hG hGE hL hLE (fuel + 3)

/-- `chainSeg` on an empty chain. -/
lemma chainSeg_nil : chainSeg [] = [] := rfl

/-- `chainSeg` unfolded one link. -/
lemma chainSeg_cons (l : ChainLink) (rest : List ChainLink) :
    chainSeg (l :: rest) =
      ⟨l.op, l.opPos⟩ :: ⟨Token.Number l.num, l.numPos⟩ :: chainSeg rest := by
  simp [chainSeg]

/-- The token at the start of a chain segment: the next link's operator or
the final `Eof`. -/
lemma chain_next_token (pe : Position) (rest : List ChainLink)
    (pre : List TokenMetadata) :
    ∃ tm2 : TokenMetadata,
      (pre ++ (chainSeg rest ++ [(⟨Token.Eof, pe⟩ : TokenMetadata)])).get?
          pre.length = some tm2 ∧
      (tm2.token = .Eof ∨ ∃ l2 ∈ rest, tm2.token = l2.op) := by
  cases rest with
  | nil =>
    refine ⟨(⟨.Eof, pe⟩ : TokenMetadata), ?_, Or.inl rfl⟩
    rw [get?_append_len]
    rfl
  | cons l2 r2 =>
    refine ⟨(⟨l2.op, l2.opPos⟩ : TokenMetadata), ?_,
      Or.inr ⟨l2, List.mem_cons_self l2 r2, rfl⟩⟩
    rw [get?_append_len, chainSeg_cons]
    rfl

/-- The term-level fold loop over a `-`/`+` chain folds left: each iteration
wraps the running expression as the left child of a new `Binary` node. -/
lemma term_fold_chain (pe : Position) :
    ∀ (links : List ChainLink) (pre : List TokenMetadata) (e : Expression)
      (fuel : Nat),
      (∀ l ∈ links, l.op = .Minus ∨ l.op = .Plus) →
      Parser.term_fold (pre ++ (chainSeg links ++ [⟨Token.Eof, pe⟩]))
          e pre.length (links.length + fuel + 4) =
        some (.ok (links.foldl
          (fun acc l => .Binary acc l.op (.Literal (.Number l.num))) e,
          pre.length + 2 * links.length)) := by
  intro links
  induction links with
  | nil =>
    intro pre e fuel _
    have hg : (pre ++ (chainSeg [] ++ [(⟨Token.Eof, pe⟩ : TokenMetadata)])).get?
        pre.length = some ⟨Token.Eof, pe⟩ := by
      rw [get?_append_len]
      rfl
    have h1 : Parser.check (pre ++ (chainSeg [] ++ [⟨Token.Eof, pe⟩]))
        .Minus pre.length = false := by
      rw [check_of_get? hg]
      rfl
    have h2 : Parser.check (pre ++ (chainSeg [] ++ [⟨Token.Eof, pe⟩]))
        .Plus pre.length = false := by
      rw [check_of_get? hg]
      rfl
    simp only [List.length_nil, List.foldl_nil, Nat.zero_add, Nat.mul_zero,
      Nat.add_zero]
    exact term_fold_exit h1 h2 (fuel + 3)
  | cons l rest ih =>
    intro pre e fuel hops
    have hop := hops l (List.mem_cons_self l rest)
    have hrestops : ∀ l2 ∈ rest, l2.op = .Minus ∨ l2.op = .Plus :=
      fun l2 h2 => hops l2 (List.mem_cons_of_mem _ h2)
    rw [chainSeg_cons, List.cons_append, List.cons_append]
    set tks := pre ++ ((⟨l.op, l.opPos⟩ : TokenMetadata) ::
      (⟨Token.Number l.num, l.numPos⟩ : TokenMetadata) ::
      (chainSeg rest ++ [⟨Token.Eof, pe⟩])) with htks
    have hget0 : tks.get? pre.length = some ⟨l.op, l.opPos⟩ := by
      rw [htks, get?_append_len]
      rfl
    have hget1 : tks.get? (pre.length + 1) = some ⟨Token.Number l.num, l.numPos⟩ := by
      rw [htks, get?_append_len_add]
      rfl
    have hmt : Parser.matchesTk tks [.Minus, .Plus] pre.length =
        (true, pre.length + 1) := by
      rcases hop with hop | hop
      · have hc1 : Parser.check tks .Minus pre.length = true := by
          rw [check_of_get? hget0, hop]
          rfl
        simp [Parser.matchesTk, hc1]
      · have hc1 : Parser.check tks .Minus pre.length = false := by
          rw [check_of_get? hget0, hop]
          rfl
        have hc2 : Parser.check tks .Plus pre.length = true := by
          rw [check_of_get? hget0, hop]
          rfl
        simp [Parser.matchesTk, hc1, hc2]
    have hprev : Parser.previous tks (pre.length + 1) = some ⟨l.op, l.opPos⟩ := by
      rw [Parser.previous, if_neg (by omega)]
      simpa using hget0
    obtain ⟨tm2, hg2, htm2⟩ := chain_next_token pe rest
      (pre ++ [⟨l.op, l.opPos⟩, ⟨Token.Number l.num, l.numPos⟩])
    have hg2' : tks.get? (pre.length + 1 + 1) = some tm2 := by
      rw [show pre.length + 1 + 1 =
        (pre ++ [(⟨l.op, l.opPos⟩ : TokenMetadata),
          ⟨Token.Number l.num, l.numPos⟩]).length from by simp]
      rw [htks]
      simpa [List.append_assoc, List.cons_append] using hg2
    have htm2' : tm2.token ≠ .Slash ∧ tm2.token ≠ .Star := by
      rcases htm2 with h | ⟨l2, hl2, h⟩
      · rw [h]
        exact ⟨by simp, by simp⟩
      · rcases hrestops l2 hl2 with h2 | h2 <;> rw [h, h2] <;> exact ⟨by simp, by simp⟩
    have hS : Parser.check tks .Slash (pre.length + 1 + 1) = false := by
      rw [check_of_get? hg2']
      simp [htm2'.1]
    have hT : Parser.check tks .Star (pre.length + 1 + 1) = false := by
      rw [check_of_get? hg2']
      simp [htm2'.2]
    have hfe : (l :: rest).length + fuel + 4 = (rest.length + (fuel + 1)) + 3 + 1 := by
      simp
      omega
    rw [hfe, Parser.term_fold]
    simp only [hmt, hprev]
    rw [factor_at_number hget1 rfl hS hT (rest.length + (fuel + 1))]
    have hih := ih (pre ++ [⟨l.op, l.opPos⟩, ⟨Token.Number l.num, l.numPos⟩])
      (.Binary e l.op (.Literal (.Number l.num))) fuel hrestops
    have hlist : (pre ++ [(⟨l.op, l.opPos⟩ : TokenMetadata),
        ⟨Token.Number l.num, l.numPos⟩]) ++ (chainSeg rest ++ [⟨Token.Eof, pe⟩]) =
        tks := by
      rw [htks]
      simp [List.append_assoc]
    have hlen2 : (pre ++ [(⟨l.op, l.opPos⟩ : TokenMetadata),
        ⟨Token.Number l.num, l.numPos⟩]).length = pre.length + 1 + 1 := by
      simp
    rw [hlist, hlen2,
      show rest.length + fuel + 4 = rest.length + (fuel + 1) + 3 from by omega] at hih
    exact hih.trans (by
      simp only [List.foldl_cons, Option.some.injEq, Except.ok.injEq, Prod.mk.injEq,
        List.length_cons]
      exact ⟨trivial, by omega⟩)

/-- Length of a chain segment: two tokens per link. -/
lemma chainSeg_length (links : List ChainLink) :
    (chainSeg links).length = 2 * links.length := by
  induction links with
  | nil => rfl
  | cons l rest ih =>
    rw [chainSeg_cons]
    simp only [List.length_cons, ih]
    omega

/-- Length of a chain token sequence. -/
lemma chainToks_length (x0 : String) (p0 : Position) (links : List ChainLink)
    (pe : Position) :
    (chainToks x0 p0 links pe).length = 2 + 2 * links.length := by
  rw [chainToks]
  simp only [List.length_cons, List.length_append, List.length_singleton,
    List.length_nil, chainSeg_length]
  omega

/-- After the whole chain is consumed the cursor sits on the final `Eof`. -/
lemma chain_eof_get? (x0 : String) (p0 : Position) (links : List ChainLink)
    (pe : Position) :
    (chainToks x0 p0 links pe).get? (1 + 2 * links.length) =
      some ⟨Token.Eof, pe⟩ := by
  rw [chainToks, show 1 + 2 * links.length = 2 * links.length + 1 from by omega,
    List.get?_cons_succ,
    show 2 * links.length = (chainSeg links).length from (chainSeg_length links).symm,
    get?_append_len]
  rfl

/-- The token after the leading operand: the first operator or `Eof`. -/
lemma chain_get1 (x0 : String) (p0 : Position) (links : List ChainLink)
    (pe : Position) :
    ∃ tm2 : TokenMetadata,
      ((⟨Token.Number x0, p0⟩ : TokenMetadata) ::
        (chainSeg links ++ [⟨Token.Eof, pe⟩])).get? 1 = some tm2 ∧
      (tm2.token = .Eof ∨ ∃ l2 ∈ links, tm2.token = l2.op) := by
  obtain ⟨tm2, hg, htm⟩ := chain_next_token pe links [⟨Token.Number x0, p0⟩]
  refine ⟨tm2, ?_, htm⟩
  simpa using hg

/-- The factor-level fold loop over a `/`/`*` chain folds left. -/
lemma factor_fold_chain (pe : Position) :
    ∀ (links : List ChainLink) (pre : List TokenMetadata) (e : Expression)
      (fuel : Nat),
      (∀ l ∈ links, l.op = .Slash ∨ l.op = .Star) →
      Parser.factor_fold (pre ++ (chainSeg links ++ [⟨Token.Eof, pe⟩]))
          e pre.length (links.length + fuel + 3) =
        some (.ok (links.foldl
          (fun acc l => .Binary acc l.op (.Literal (.Number l.num))) e,
          pre.length + 2 * links.length)) := by
  intro links
  induction links with
  | nil =>
    intro pre e fuel _
    have hg : (pre ++ (chainSeg [] ++ [(⟨Token.Eof, pe⟩ : TokenMetadata)])).get?
        pre.length = some ⟨Token.Eof, pe⟩ := by
      rw [get?_append_len]
      rfl
    have h1 : Parser.check (pre ++ (chainSeg [] ++ [⟨Token.Eof, pe⟩]))
        .Slash pre.length = false := by
      rw [check_of_get? hg]
      rfl
    have h2 : Parser.check (pre ++ (chainSeg [] ++ [⟨Token.Eof, pe⟩]))
        .Star pre.length = false := by
      rw [check_of_get? hg]
      rfl
    simp only [List.length_nil, List.foldl_nil, Nat.zero_add, Nat.mul_zero,
      Nat.add_zero]
    exact factor_fold_exit h1 h2 (fuel + 2)
  | cons l rest ih =>
    intro pre e fuel hops
    have hop := hops l (List.mem_cons_self l rest)
    have hrestops : ∀ l2 ∈ rest, l2.op = .Slash ∨ l2.op = .Star :=
      fun l2 h2 => hops l2 (List.mem_cons_of_mem _ h2)
    rw [chainSeg_cons, List.cons_append, List.cons_append]
    set tks := pre ++ ((⟨l.op, l.opPos⟩ : TokenMetadata) ::
      (⟨Token.Number l.num, l.numPos⟩ : TokenMetadata) ::
      (chainSeg rest ++ [⟨Token.Eof, pe⟩])) with htks
    have hget0 : tks.get? pre.length = some ⟨l.op, l.opPos⟩ := by
      rw [htks, get?_append_len]
      rfl
    have hget1 : tks.get? (pre.length + 1) = some ⟨Token.Number l.num, l.numPos⟩ := by
      rw [htks, get?_append_len_add]
      rfl
    have hmt : Parser.matchesTk tks [.Slash, .Star] pre.length =
        (true, pre.length + 1) := by
      rcases hop with hop | hop
      · have hc1 : Parser.check tks .Slash pre.length = true := by
          rw [check_of_get? hget0, hop]
          rfl
        simp [Parser.matchesTk, hc1]
      · have hc1 : Parser.check tks .Slash pre.length = false := by
          rw [check_of_get? hget0, hop]
          rfl
        have hc2 : Parser.check tks .Star pre.length = true := by
          rw [check_of_get? hget0, hop]
          rfl
        simp [Parser.matchesTk, hc1, hc2]
    have hprev : Parser.previous tks (pre.length + 1) = some ⟨l.op, l.opPos⟩ := by
      rw [Parser.previous, if_neg (by omega)]
      simpa using hget0
    have hfe : (l :: rest).length + fuel + 3 = (rest.length + (fuel + 1)) + 2 + 1 := by
      simp
      omega
    rw [hfe, Parser.factor_fold]
    simp only [hmt, hprev]
    rw [unary_at_number hget1 rfl (rest.length + (fuel + 1))]
    have hih := ih (pre ++ [⟨l.op, l.opPos⟩, ⟨Token.Number l.num, l.numPos⟩])
      (.Binary e l.op (.Literal (.Number l.num))) fuel hrestops
    have hlist : (pre ++ [(⟨l.op, l.opPos⟩ : TokenMetadata),
        ⟨Token.Number l.num, l.numPos⟩]) ++ (chainSeg rest ++ [⟨Token.Eof, pe⟩]) =
        tks := by
      rw [htks]
      simp [List.append_assoc]
    have hlen2 : (pre ++ [(⟨l.op, l.opPos⟩ : TokenMetadata),
        ⟨Token.Number l.num, l.numPos⟩]).length = pre.length + 1 + 1 := by
      simp
    rw [hlist, hlen2,
      show rest.length + fuel + 3 = rest.length + (fuel + 1) + 2 from by omega] at hih
    exact hih.trans (by
      simp only [List.foldl_cons, Option.some.injEq, Except.ok.injEq, Prod.mk.injEq,
        List.length_cons]
      exact ⟨trivial, by omega⟩)

/-- The comparison-level fold loop over a `>`/`>=`/`<`/`<=` chain folds left. -/
lemma comparison_fold_chain (pe : Position) :
    ∀ (links : List ChainLink) (pre : List TokenMetadata) (e : Expression)
      (fuel : Nat),
      (∀ l ∈ links, l.op = .Greater ∨ l.op = .GreaterEqual ∨ l.op = .Less ∨ l.op = .LessEqual) →
      Parser.comparison_fold (pre ++ (chainSeg links ++ [⟨Token.Eof, pe⟩]))
          e pre.length (links.length + fuel + 5) =
        some (.ok (links.foldl
          (fun acc l => .Binary acc l.op (.Literal (.Number l.num))) e,
          pre.length + 2 * links.length)) := by
  intro links
  induction links with
  | nil =>
    intro pre e fuel _
    have hg : (pre ++ (chainSeg [] ++ [(⟨Token.Eof, pe⟩ : TokenMetadata)])).get?
        pre.length = some ⟨Token.Eof, pe⟩ := by
      rw [get?_append_len]
      rfl
    have hn0 : Parser.check (pre ++ (chainSeg [] ++ [⟨Token.Eof, pe⟩]))
        .Greater pre.length = false := by
      rw [check_of_get? hg]
      rfl
    have hn1 : Parser.check (pre ++ (chainSeg [] ++ [⟨Token.Eof, pe⟩]))
        .GreaterEqual pre.length = false := by
      rw [check_of_get? hg]
      rfl
    have hn2 : Parser.check (pre ++ (chainSeg [] ++ [⟨Token.Eof, pe⟩]))
        .Less pre.length = false := by
      rw [check_of_get? hg]
      rfl
    have hn3 : Parser.check (pre ++ (chainSeg [] ++ [⟨Token.Eof, pe⟩]))
        .LessEqual pre.length = false := by
      rw [check_of_get? hg]
      rfl
    simp only [List.length_nil, List.foldl_nil, Nat.zero_add, Nat.mul_zero,
      Nat.add_zero]
    exact comparison_fold_exit hn0 hn1 hn2 hn3 (fuel + 4)
  | cons l rest ih =>
    intro pre e fuel hops
    have hop := hops l (List.mem_cons_self l rest)
    have hrestops : ∀ l2 ∈ rest, l2.op = .Greater ∨ l2.op = .GreaterEqual ∨ l2.op = .Less ∨ l2.op = .LessEqual :=
      fun l2 h2 => hops l2 (List.mem_cons_of_mem _ h2)
    rw [chainSeg_cons, List.cons_append, List.cons_append]
    set tks := pre ++ ((⟨l.op, l.opPos⟩ : TokenMetadata) ::
      (⟨Token.Number l.num, l.numPos⟩ : TokenMetadata) ::
      (chainSeg rest ++ [⟨Token.Eof, pe⟩])) with htks
    have hget0 : tks.get? pre.length = some ⟨l.op, l.opPos⟩ := by
      rw [htks, get?_append_len]
      rfl
    have hget1 : tks.get? (pre.length + 1) = some ⟨Token.Number l.num, l.numPos⟩ := by
      rw [htks, get?_append_len_add]
      rfl
    have hmt : Parser.matchesTk tks [.Greater, .GreaterEqual, .Less, .LessEqual] pre.length =
        (true, pre.length + 1) := by
      rcases hop with hop | hop | hop | hop
      · have hc0 : Parser.check tks .Greater pre.length = true := by
          rw [check_of_get? hget0, hop]
          rfl
        simp [Parser.matchesTk, hc0]
      · have hc0 : Parser.check tks .Greater pre.length = false := by
          rw [check_of_get? hget0, hop]
          rfl
        have hc1 : Parser.check tks .GreaterEqual pre.length = true := by
          rw [check_of_get? hget0, hop]
          rfl
        simp [Parser.matchesTk, hc0, hc1]
      · have hc0 : Parser.check tks .Greater pre.length = false := by
          rw [check_of_get? hget0, hop]
          rfl
        have hc1 : Parser.check tks .GreaterEqual pre.length = false := by
          rw [check_of_get? hget0, hop]
          rfl
        have hc2 : Parser.check tks .Less pre.length = true := by
          rw [check_of_get? hget0, hop]
          rfl
        simp [Parser.matchesTk, hc0, hc1, hc2]
      · have hc0 : Parser.check tks .Greater pre.length = false := by
          rw [check_of_get? hget0, hop]
          rfl
        have hc1 : Parser.check tks .GreaterEqual pre.length = false := by
          rw [check_of_get? hget0, hop]
          rfl
        have hc2 : Parser.check tks .Less pre.length = false := by
          rw [check_of_get? hget0, hop]
          rfl
        have hc3 : Parser.check tks .LessEqual pre.length = true := by
          rw [check_of_get? hget0, hop]
          rfl
        simp [Parser.matchesTk, hc0, hc1, hc2, hc3]
    have hprev : Parser.previous tks (pre.length + 1) = some ⟨l.op, l.opPos⟩ := by
      rw [Parser.previous, if_neg (by omega)]
      simpa using hget0
    obtain ⟨tm2, hg2, htm2⟩ := chain_next_token pe rest
      (pre ++ [⟨l.op, l.opPos⟩, ⟨Token.Number l.num, l.numPos⟩])
    have hg2' : tks.get? (pre.length + 1 + 1) = some tm2 := by
      rw [show pre.length + 1 + 1 =
        (pre ++ [(⟨l.op, l.opPos⟩ : TokenMetadata),
          ⟨Token.Number l.num, l.numPos⟩]).length from by simp]
      rw [htks]
      simpa [List.append_assoc, List.cons_append] using hg2
    have htm2' : tm2.token ≠ .Slash ∧ tm2.token ≠ .Star ∧ tm2.token ≠ .Minus ∧ tm2.token ≠ .Plus := by
      rcases htm2 with h | ⟨l2, hl2, h⟩
      · rw [h]
        exact ⟨by simp, by simp, by simp, by simp⟩
      · rcases hrestops l2 hl2 with h2 | h2 | h2 | h2 <;> rw [h, h2] <;> exact ⟨by simp, by simp, by simp, by simp⟩
    have hx0 : Parser.check tks .Slash (pre.length + 1 + 1) = false := by
      rw [check_of_get? hg2']
      simp [htm2'.1]
    have hx1 : Parser.check tks .Star (pre.length + 1 + 1) = false := by
      rw [check_of_get? hg2']
      simp [htm2'.2.1]
    have hx2 : Parser.check tks .Minus (pre.length + 1 + 1) = false := by
      rw [check_of_get? hg2']
      simp [htm2'.2.2.1]
    have hx3 : Parser.check tks .Plus (pre.length + 1 + 1) = false := by
      rw [check_of_get? hg2']
      simp [htm2'.2.2.2]
    have hfe : (l :: rest).length + fuel + 5 =
        (rest.length + (fuel + 1)) + 4 + 1 := by
      simp
      omega
    rw [hfe, Parser.comparison_fold]
    simp only [hmt, hprev]
    rw [term_at_number hget1 rfl hx0 hx1 hx2 hx3 (rest.length + (fuel + 1))]
    have hih := ih (pre ++ [⟨l.op, l.opPos⟩, ⟨Token.Number l.num, l.numPos⟩])
      (.Binary e l.op (.Literal (.Number l.num))) fuel hrestops
    have hlist : (pre ++ [(⟨l.op, l.opPos⟩ : TokenMetadata),
        ⟨Token.Number l.num, l.numPos⟩]) ++ (chainSeg rest ++ [⟨Token.Eof, pe⟩]) =
        tks := by
      rw [htks]
      simp [List.append_assoc]
    have hlen2 : (pre ++ [(⟨l.op, l.opPos⟩ : TokenMetadata),
        ⟨Token.Number l.num, l.numPos⟩]).length = pre.length + 1 + 1 := by
      simp
    rw [hlist, hlen2,
      show rest.length + fuel + 5 = rest.length + (fuel + 1) + 4 from
        by omega] at hih
    exact hih.trans (by
      simp only [List.foldl_cons, Option.some.injEq, Except.ok.injEq, Prod.mk.injEq,
        List.length_cons]
      exact ⟨trivial, by omega⟩)

/-- The equality-level fold loop over a `!=`/`==` chain folds left. -/
lemma equality_fold_chain (pe : Position) :
    ∀ (links : List ChainLink) (pre : List TokenMetadata) (e : Expression)
      (fuel : Nat),
      (∀ l ∈ links, l.op = .BangEqual ∨ l.op = .EqualEqual) →
      Parser.equality_fold (pre ++ (chainSeg links ++ [⟨Token.Eof, pe⟩]))
          e pre.length (links.length + fuel + 6) =
        some (.ok (links.foldl
          (fun acc l => .Binary acc l.op (.Literal (.Number l.num))) e,
          pre.length + 2 * links.length)) := by
  intro links
  induction links with
  | nil =>
    intro pre e fuel _
    have hg : (pre ++ (chainSeg [] ++ [(⟨Token.Eof, pe⟩ : TokenMetadata)])).get?
        pre.length = some ⟨Token.Eof, pe⟩ := by
      rw [get?_append_len]
      rfl
    have hn0 : Parser.check (pre ++ (chainSeg [] ++ [⟨Token.Eof, pe⟩]))
        .BangEqual pre.length = false := by
      rw [check_of_get? hg]
      rfl
    have hn1 : Parser.check (pre ++ (chainSeg [] ++ [⟨Token.Eof, pe⟩]))
        .EqualEqual pre.length = false := by
      rw [check_of_get? hg]
      rfl
    simp only [List.length_nil, List.foldl_nil, Nat.zero_add, Nat.mul_zero,
      Nat.add_zero]
    exact equality_fold_exit hn0 hn1 (fuel + 5)
  | cons l rest ih =>
    intro pre e fuel hops
    have hop := hops l (List.mem_cons_self l rest)
    have hrestops : ∀ l2 ∈ rest, l2.op = .BangEqual ∨ l2.op = .EqualEqual :=
      fun l2 h2 => hops l2 (List.mem_cons_of_mem _ h2)
    rw [chainSeg_cons, List.cons_append, List.cons_append]
    set tks := pre ++ ((⟨l.op, l.opPos⟩ : TokenMetadata) ::
      (⟨Token.Number l.num, l.numPos⟩ : TokenMetadata) ::
      (chainSeg rest ++ [⟨Token.Eof, pe⟩])) with htks
    have hget0 : tks.get? pre.length = some ⟨l.op, l.opPos⟩ := by
      rw [htks, get?_append_len]
      rfl
    have hget1 : tks.get? (pre.length + 1) = some ⟨Token.Number l.num, l.numPos⟩ := by
      rw [htks, get?_append_len_add]
      rfl
    have hmt : Parser.matchesTk tks [.BangEqual, .EqualEqual] pre.length =
        (true, pre.length + 1) := by
      rcases hop with hop | hop
      · have hc0 : Parser.check tks .BangEqual pre.length = true := by
          rw [check_of_get? hget0, hop]
          rfl
        simp [Parser.matchesTk, hc0]
      · have hc0 : Parser.check tks .BangEqual pre.length = false := by
          rw [check_of_get? hget0, hop]
          rfl
        have hc1 : Parser.check tks .EqualEqual pre.length = true := by
          rw [check_of_get? hget0, hop]
          rfl
        simp [Parser.matchesTk, hc0, hc1]
    have hprev : Parser.previous tks (pre.length + 1) = some ⟨l.op, l.opPos⟩ := by
      rw [Parser.previous, if_neg (by omega)]
      simpa using hget0
    obtain ⟨tm2, hg2, htm2⟩ := chain_next_token pe rest
      (pre ++ [⟨l.op, l.opPos⟩, ⟨Token.Number l.num, l.numPos⟩])
    have hg2' : tks.get? (pre.length + 1 + 1) = some tm2 := by
      rw [show pre.length + 1 + 1 =
        (pre ++ [(⟨l.op, l.opPos⟩ : TokenMetadata),
          ⟨Token.Number l.num, l.numPos⟩]).length from by simp]
      rw [htks]
      simpa [List.append_assoc, List.cons_append] using hg2
    have htm2' : tm2.token ≠ .Slash ∧ tm2.token ≠ .Star ∧ tm2.token ≠ .Minus ∧ tm2.token ≠ .Plus ∧ tm2.token ≠ .Greater ∧ tm2.token ≠ .GreaterEqual ∧ tm2.token ≠ .Less ∧ tm2.token ≠ .LessEqual := by
      rcases htm2 with h | ⟨l2, hl2, h⟩
      · rw [h]
        exact ⟨by simp, by simp, by simp, by simp, by simp, by simp, by simp, by simp⟩
      · rcases hrestops l2 hl2 with h2 | h2 <;> rw [h, h2] <;> exact ⟨by simp, by simp, by simp, by simp, by simp, by simp, by simp, by simp⟩
    have hx0 : Parser.check tks .Slash (pre.length + 1 + 1) = false := by
      rw [check_of_get? hg2']
      simp [htm2'.1]
    have hx1 : Parser.check tks .Star (pre.length + 1 + 1) = false := by
      rw [check_of_get? hg2']
      simp [htm2'.2.1]
    have hx2 : Parser.check tks .Minus (pre.length + 1 + 1) = false := by
      rw [check_of_get? hg2']
      simp [htm2'.2.2.1]
    have hx3 : Parser.check tks .Plus (pre.length + 1 + 1) = false := by
      rw [check_of_get? hg2']
      simp [htm2'.2.2.2.1]
    have hx4 : Parser.check tks .Greater (pre.length + 1 + 1) = false := by
      rw [check_of_get? hg2']
      simp [htm2'.2.2.2.2.1]
    have hx5 : Parser.check tks .GreaterEqual (pre.length + 1 + 1) = false := by
      rw [check_of_get? hg2']
      simp [htm2'.2.2.2.2.2.1]
    have hx6 : Parser.check tks .Less (pre.length + 1 + 1) = false := by
      rw [check_of_get? hg2']
      simp [htm2'.2.2.2.2.2.2.1]
    have hx7 : Parser.check tks .LessEqual (pre.length + 1 + 1) = false := by
      rw [check_of_get? hg2']
      simp [htm2'.2.2.2.2.2.2.2]
    have hfe : (l :: rest).length + fuel + 6 =
        (rest.length + (fuel + 1)) + 5 + 1 := by
      simp
      omega
    rw [hfe, Parser.equality_fold]
    simp only [hmt, hprev]
    rw [comparison_at_number hget1 rfl hx0 hx1 hx2 hx3 hx4 hx5 hx6 hx7 (rest.length + (fuel + 1))]
    have hih := ih (pre ++ [⟨l.op, l.opPos⟩, ⟨Token.Number l.num, l.numPos⟩])
      (.Binary e l.op (.Literal (.Number l.num))) fuel hrestops
    have hlist : (pre ++ [(⟨l.op, l.opPos⟩ : TokenMetadata),
        ⟨Token.Number l.num, l.numPos⟩]) ++ (chainSeg rest ++ [⟨Token.Eof, pe⟩]) =
        tks := by
      rw [htks]
      simp [List.append_assoc]
    have hlen2 : (pre ++ [(⟨l.op, l.opPos⟩ : TokenMetadata),
        ⟨Token.Number l.num, l.numPos⟩]).length = pre.length + 1 + 1 := by
      simp
    rw [hlist, hlen2,
      show rest.length + fuel + 6 = rest.length + (fuel + 1) + 5 from
        by omega] at hih
    exact hih.trans (by
      simp only [List.foldl_cons, Option.some.injEq, Except.ok.injEq, Prod.mk.injEq,
        List.length_cons]
      exact ⟨trivial, by omega⟩)

/-- Every `check` fails on the final `Eof` of a chain. -/
lemma chain_eof_check (x0 : String) (p0 : Position) (links : List ChainLink)
    (pe : Position) (t : Token) :
    Parser.check (chainToks x0 p0 links pe) t (1 + 2 * links.length) = false := by
  rw [check_of_get? (chain_eof_get? x0 p0 links pe)]
  rfl

/-- The leading operand of a chain. -/
lemma chain_get0 (x0 : String) (p0 : Position) (links : List ChainLink)
    (pe : Position) :
    (chainToks x0 p0 links pe).get? 0 = some ⟨Token.Number x0, p0⟩ := by
  rw [chainToks]
  rfl

/-- `term` from a completed `factor` whose follower is neither `-` nor `+`. -/
lemma term_pass {tks : List TokenMetadata} {c : Nat} {e : Expression} {c2 : Nat}
    {fuel : Nat} (h : Parser.factor tks c (fuel + 1) = some (.ok (e, c2)))
    (h1 : Parser.check tks .Minus c2 = false)
    (h2 : Parser.check tks .Plus c2 = false) :
    Parser.term tks c (fuel + 2) = some (.ok (e, c2)) := by
  rw [Parser.term, h]
  exact term_fold_exit h1 h2 fuel

/-- `comparison` from a completed `term` whose follower is no comparison
operator. -/
lemma comparison_pass {tks : List TokenMetadata} {c : Nat} {e : Expression}
    {c2 : Nat} {fuel : Nat} (h : Parser.term tks c (fuel + 1) = some (.ok (e, c2)))
    (h1 : Parser.check tks .Greater c2 = false)
    (h2 : Parser.check tks .GreaterEqual c2 = false)
    (h3 : Parser.check tks .Less c2 = false)
    (h4 : Parser.check tks .LessEqual c2 = false) :
    Parser.comparison tks c (fuel + 2) = some (.ok (e, c2)) := by
  rw [Parser.comparison, h]
  exact comparison_fold_exit h1 h2 h3 h4 fuel

/-- `equality` from a completed `comparison` whose follower is neither `!=`
nor `==`. -/
lemma equality_pass {tks : List TokenMetadata} {c : Nat} {e : Expression}
    {c2 : Nat} {fuel : Nat}
    (h : Parser.comparison tks c (fuel + 1) = some (.ok (e, c2)))
    (h1 : Parser.check tks .BangEqual c2 = false)
    (h2 : Parser.check tks .EqualEqual c2 = false) :
    Parser.equality tks c (fuel + 2) = some (.ok (e, c2)) := by
  rw [Parser.equality, h]
  exact equality_fold_exit h1 h2 fuel

/-- `expression` simply defers to `equality`. -/
lemma expression_pass {tks : List TokenMetadata} {c : Nat} {fuel : Nat}
    {r : Parser.PResult} (h : Parser.equality tks c fuel = r) :
    Parser.expression tks c (fuel + 1) = r := by
  rw [Parser.expression]
  exact h

/-- `parse` from a completed `expression` at the entry fuel. -/
lemma parse_of_expression {tks : List TokenMetadata} {e : Expression} {c2 : Nat}
    (h : Parser.expression tks 0 (Parser.parserFuel tks) = some (.ok (e, c2))) :
    Parser.parse tks = some (.ok e) := by
  rw [Parser.parse, h]

/-- A `-`/`+` chain parsed from the top: `expression` yields the left fold. -/
lemma expression_chain_term (x0 : String) (p0 : Position) (links : List ChainLink)
    (pe : Position) (fuel : Nat)
    (hops : ∀ l ∈ links, l.op = .Minus ∨ l.op = .Plus) :
    Parser.expression (chainToks x0 p0 links pe) 0 (links.length + fuel + 8) =
      some (.ok (chainExpr x0 links, 1 + 2 * links.length)) := by
  have hg0 := chain_get0 x0 p0 links pe
  obtain ⟨tm2, hg1, htm⟩ := chain_get1 x0 p0 links pe
  have hg1' : (chainToks x0 p0 links pe).get? 1 = some tm2 := hg1
  have hb0 : Parser.check (chainToks x0 p0 links pe) .Slash 1 = false := by
    rw [check_of_get? hg1']
    rcases htm with h | ⟨l2, hl2, h⟩
    · rw [h]
      rfl
    · rcases hops l2 hl2 with h2 | h2 <;> rw [h, h2] <;> rfl
  have hb1 : Parser.check (chainToks x0 p0 links pe) .Star 1 = false := by
    rw [check_of_get? hg1']
    rcases htm with h | ⟨l2, hl2, h⟩
    · rw [h]
      rfl
    · rcases hops l2 hl2 with h2 | h2 <;> rw [h, h2] <;> rfl
  have hfac : Parser.factor (chainToks x0 p0 links pe) 0
      (links.length + fuel + 4) = some (.ok (.Literal (.Number x0), 0 + 1)) := by
    rw [show links.length + fuel + 4 = (links.length + fuel + 1) + 3 from by omega]
    exact factor_at_number hg0 rfl hb0 hb1 (links.length + fuel + 1)
  have hterm : Parser.term (chainToks x0 p0 links pe) 0
      (links.length + fuel + 5) = some (.ok (chainExpr x0 links,
        1 + 2 * links.length)) := by
    rw [show links.length + fuel + 5 = (links.length + fuel + 4) + 1 from by omega,
      Parser.term, hfac]
    have hfold := term_fold_chain pe links [⟨Token.Number x0, p0⟩]
      (.Literal (.Number x0)) fuel hops
    simp only [List.singleton_append, List.length_singleton] at hfold
    exact hfold
  have hcmp : Parser.comparison (chainToks x0 p0 links pe) 0
      (links.length + fuel + 6) = some (.ok (chainExpr x0 links,
        1 + 2 * links.length)) := by
    rw [show links.length + fuel + 6 = (links.length + fuel + 4) + 2 from by omega]
    refine comparison_pass ?_ (chain_eof_check x0 p0 links pe _)
      (chain_eof_check x0 p0 links pe _) (chain_eof_check x0 p0 links pe _)
      (chain_eof_check x0 p0 links pe _)
    rw [show links.length + fuel + 4 + 1 = links.length + fuel + 5 from by omega]
    exact hterm
  have heq : Parser.equality (chainToks x0 p0 links pe) 0
      (links.length + fuel + 7) = some (.ok (chainExpr x0 links,
        1 + 2 * links.length)) := by
    rw [show links.length + fuel + 7 = (links.length + fuel + 5) + 2 from by omega]
    refine equality_pass ?_ (chain_eof_check x0 p0 links pe _)
      (chain_eof_check x0 p0 links pe _)
    rw [show links.length + fuel + 5 + 1 = links.length + fuel + 6 from by omega]
    exact hcmp
  rw [show links.length + fuel + 8 = (links.length + fuel + 7) + 1 from by omega]
  exact expression_pass heq

/-- A `/`/`*` chain parsed from the top: `expression` yields the left fold. -/
lemma expression_chain_factor (x0 : String) (p0 : Position) (links : List ChainLink)
    (pe : Position) (fuel : Nat)
    (hops : ∀ l ∈ links, l.op = .Slash ∨ l.op = .Star) :
    Parser.expression (chainToks x0 p0 links pe) 0 (links.length + fuel + 8) =
      some (.ok (chainExpr x0 links, 1 + 2 * links.length)) := by
  have hg0 := chain_get0 x0 p0 links pe
  have hun : Parser.unary (chainToks x0 p0 links pe) 0
      (links.length + fuel + 3) = some (.ok (.Literal (.Number x0), 0 + 1)) := by
    rw [show links.length + fuel + 3 = (links.length + fuel + 1) + 2 from by omega]
    exact unary_at_number hg0 rfl (links.length + fuel + 1)
  have hfac : Parser.factor (chainToks x0 p0 links pe) 0
      (links.length + fuel + 4) = some (.ok (chainExpr x0 links,
        1 + 2 * links.length)) := by
    rw [show links.length + fuel + 4 = (links.length + fuel + 3) + 1 from by omega,
      Parser.factor, hun]
    have hfold := factor_fold_chain pe links [⟨Token.Number x0, p0⟩]
      (.Literal (.Number x0)) fuel hops
    simp only [List.singleton_append, List.length_singleton] at hfold
    exact hfold
  have hterm : Parser.term (chainToks x0 p0 links pe) 0
      (links.length + fuel + 5) = some (.ok (chainExpr x0 links,
        1 + 2 * links.length)) := by
    rw [show links.length + fuel + 5 = (links.length + fuel + 3) + 2 from by omega]
    refine term_pass ?_ (chain_eof_check x0 p0 links pe _)
      (chain_eof_check x0 p0 links pe _)
    rw [show links.length + fuel + 3 + 1 = links.length + fuel + 4 from by omega]
    exact hfac
  have hcmp : Parser.comparison (chainToks x0 p0 links pe) 0
      (links.length + fuel + 6) = some (.ok (chainExpr x0 links,
        1 + 2 * links.length)) := by
    rw [show links.length + fuel + 6 = (links.length + fuel + 4) + 2 from by omega]
    refine comparison_pass ?_ (chain_eof_check x0 p0 links pe _)
      (chain_eof_check x0 p0 links pe _) (chain_eof_check x0 p0 links pe _)
      (chain_eof_check x0 p0 links pe _)
    rw [show links.length + fuel + 4 + 1 = links.length + fuel + 5 from by omega]
    exact hterm
  have heq : Parser.equality (chainToks x0 p0 links pe) 0
      (links.length + fuel + 7) = some (.ok (chainExpr x0 links,
        1 + 2 * links.length)) := by
    rw [show links.length + fuel + 7 = (links.length + fuel + 5) + 2 from by omega]
    refine equality_pass ?_ (chain_eof_check x0 p0 links pe _)
      (chain_eof_check x0 p0 links pe _)
    rw [show links.length + fuel + 5 + 1 = links.length + fuel + 6 from by omega]
    exact hcmp
  rw [show links.length + fuel + 8 = (links.length + fuel + 7) + 1 from by omega]
  exact expression_pass heq

/-- A comparison-operator chain parsed from the top. -/
lemma expression_chain_comparison (x0 : String) (p0 : Position)
    (links : List ChainLink) (pe : Position) (fuel : Nat)
    (hops : ∀ l ∈ links, l.op = .Greater ∨ l.op = .GreaterEqual ∨
      l.op = .Less ∨ l.op = .LessEqual) :
    Parser.expression (chainToks x0 p0 links pe) 0 (links.length + fuel + 8) =
      some (.ok (chainExpr x0 links, 1 + 2 * links.length)) := by
  have hg0 := chain_get0 x0 p0 links pe
  obtain ⟨tm2, hg1, htm⟩ := chain_get1 x0 p0 links pe
  have hg1' : (chainToks x0 p0 links pe).get? 1 = some tm2 := hg1
  have hb0 : Parser.check (chainToks x0 p0 links pe) .Slash 1 = false := by
    rw [check_of_get? hg1']
    rcases htm with h | ⟨l2, hl2, h⟩
    · rw [h]
      rfl
    · rcases hops l2 hl2 with h2 | h2 | h2 | h2 <;> rw [h, h2] <;> rfl
  have hb1 : Parser.check (chainToks x0 p0 links pe) .Star 1 = false := by
    rw [check_of_get? hg1']
    rcases htm with h | ⟨l2, hl2, h⟩
    · rw [h]
      rfl
    · rcases hops l2 hl2 with h2 | h2 | h2 | h2 <;> rw [h, h2] <;> rfl
  have hb2 : Parser.check (chainToks x0 p0 links pe) .Minus 1 = false := by
    rw [check_of_get? hg1']
    rcases htm with h | ⟨l2, hl2, h⟩
    · rw [h]
      rfl
    · rcases hops l2 hl2 with h2 | h2 | h2 | h2 <;> rw [h, h2] <;> rfl
  have hb3 : Parser.check (chainToks x0 p0 links pe) .Plus 1 = false := by
    rw [check_of_get? hg1']
    rcases htm with h | ⟨l2, hl2, h⟩
    · rw [h]
      rfl
    · rcases hops l2 hl2 with h2 | h2 | h2 | h2 <;> rw [h, h2] <;> rfl
  have hterm1 : Parser.term (chainToks x0 p0 links pe) 0
      (links.length + fuel + 5) = some (.ok (.Literal (.Number x0), 0 + 1)) := by
    rw [show links.length + fuel + 5 = (links.length + fuel + 1) + 4 from by omega]
    exact term_at_number hg0 rfl hb0 hb1 hb2 hb3 (links.length + fuel + 1)
  have hcmp : Parser.comparison (chainToks x0 p0 links pe) 0
      (links.length + fuel + 6) = some (.ok (chainExpr x0 links,
        1 + 2 * links.length)) := by
    rw [show links.length + fuel + 6 = (links.length + fuel + 5) + 1 from by omega,
      Parser.comparison, hterm1]
    have hfold := comparison_fold_chain pe links [⟨Token.Number x0, p0⟩]
      (.Literal (.Number x0)) fuel hops
    simp only [List.singleton_append, List.length_singleton] at hfold
    exact hfold
  have heq : Parser.equality (chainToks x0 p0 links pe) 0
      (links.length + fuel + 7) = some (.ok (chainExpr x0 links,
        1 + 2 * links.length)) := by
    rw [show links.length + fuel + 7 = (links.length + fuel + 5) + 2 from by omega]
    refine equality_pass ?_ (chain_eof_check x0 p0 links pe _)
      (chain_eof_check x0 p0 links pe _)
    rw [show links.length + fuel + 5 + 1 = links.length + fuel + 6 from by omega]
    exact hcmp
  rw [show links.length + fuel + 8 = (links.length + fuel + 7) + 1 from by omega]
  exact expression_pass heq

/-- An `!=`/`==` chain parsed from the top. -/
lemma expression_chain_equality (x0 : String) (p0 : Position)
    (links : List ChainLink) (pe : Position) (fuel : Nat)
    (hops : ∀ l ∈ links, l.op = .BangEqual ∨ l.op = .EqualEqual) :
    Parser.expression (chainToks x0 p0 links pe) 0 (links.length + fuel + 8) =
      some (.ok (chainExpr x0 links, 1 + 2 * links.length)) := by
  have hg0 := chain_get0 x0 p0 links pe
  obtain ⟨tm2, hg1, htm⟩ := chain_get1 x0 p0 links pe
  have hg1' : (chainToks x0 p0 links pe).get? 1 = some tm2 := hg1
  have hb0 : Parser.check (chainToks x0 p0 links pe) .Slash 1 = false := by
    rw [check_of_get? hg1']
    rcases htm with h | ⟨l2, hl2, h⟩
    · rw [h]
      rfl
    · rcases hops l2 hl2 with h2 | h2 <;> rw [h, h2] <;> rfl
  have hb1 : Parser.check (chainToks x0 p0 links pe) .Star 1 = false := by
    rw [check_of_get? hg1']
    rcases htm with h | ⟨l2, hl2, h⟩
    · rw [h]
      rfl
    · rcases hops l2 hl2 with h2 | h2 <;> rw [h, h2] <;> rfl
  have hb2 : Parser.check (chainToks x0 p0 links pe) .Minus 1 = false := by
    rw [check_of_get? hg1']
    rcases htm with h | ⟨l2, hl2, h⟩
    · rw [h]
      rfl
    · rcases hops l2 hl2 with h2 | h2 <;> rw [h, h2] <;> rfl
  have hb3 : Parser.check (chainToks x0 p0 links pe) .Plus 1 = false := by
    rw [check_of_get? hg1']
    rcases htm with h | ⟨l2, hl2, h⟩
    · rw [h]
      rfl
    · rcases hops l2 hl2 with h2 | h2 <;> rw [h, h2] <;> rfl
  have hb4 : Parser.check (chainToks x0 p0 links pe) .Greater 1 = false := by
    rw [check_of_get? hg1']
    rcases htm with h | ⟨l2, hl2, h⟩
    · rw [h]
      rfl
    · rcases hops l2 hl2 with h2 | h2 <;> rw [h, h2] <;> rfl
  have hb5 : Parser.check (chainToks x0 p0 links pe) .GreaterEqual 1 = false := by
    rw [check_of_get? hg1']
    rcases htm with h | ⟨l2, hl2, h⟩
    · rw [h]
      rfl
    · rcases hops l2 hl2 with h2 | h2 <;> rw [h, h2] <;> rfl
  have hb6 : Parser.check (chainToks x0 p0 links pe) .Less 1 = false := by
    rw [check_of_get? hg1']
    rcases htm with h | ⟨l2, hl2, h⟩
    · rw [h]
      rfl
    · rcases hops l2 hl2 with h2 | h2 <;> rw [h, h2] <;> rfl
  have hb7 : Parser.check (chainToks x0 p0 links pe) .LessEqual 1 = false := by
    rw [check_of_get? hg1']
    rcases htm with h | ⟨l2, hl2, h⟩
    · rw [h]
      rfl
    · rcases hops l2 hl2 with h2 | h2 <;> rw [h, h2] <;> rfl
  have hcmp1 : Parser.comparison (chainToks x0 p0 links pe) 0
      (links.length + fuel + 6) = some (.ok (.Literal (.Number x0), 0 + 1)) := by
    rw [show links.length + fuel + 6 = (links.length + fuel + 1) + 5 from by omega]
    exact comparison_at_number hg0 rfl hb0 hb1 hb2 hb3 hb4 hb5 hb6 hb7
      (links.length + fuel + 1)
  have heq : Parser.equality (chainToks x0 p0 links pe) 0
      (links.length + fuel + 7) = some (.ok (chainExpr x0 links,
        1 + 2 * links.length)) := by
    rw [show links.length + fuel + 7 = (links.length + fuel + 6) + 1 from by omega,
      Parser.equality, hcmp1]
    have hfold := equality_fold_chain pe links [⟨Token.Number x0, p0⟩]
      (.Literal (.Number x0)) fuel hops
    simp only [List.singleton_append, List.length_singleton] at hfold
    exact hfold
  rw [show links.length + fuel + 8 = (links.length + fuel + 7) + 1 from by omega]
  exact expression_pass heq

/-- C8: each binary precedence level is left-associative.  For every token
sequence `NUMBER (op NUMBER)* EOF` whose operators all come from one
precedence level (equality, comparison, term or factor), `parse` folds the
running result as the left child of each new `Binary` node, producing the
left-leaning tree `chainExpr`; and the term-level example
`Number 1, Minus, Number 2, Minus, Number 3, Eof` produces
`Binary(Binary(1 - 2) - 3)`, which prints as `"(- (- 1 2) 3)"`. -/
theorem claim_c8_left_associative :
    (∀ (x0 : String) (p0 : Position) (links : List ChainLink) (pe : Position),
      ((∀ l ∈ links, l.op = .BangEqual ∨ l.op = .EqualEqual) ∨
        (∀ l ∈ links, l.op = .Greater ∨ l.op = .GreaterEqual ∨
          l.op = .Less ∨ l.op = .LessEqual) ∨
        (∀ l ∈ links, l.op = .Minus ∨ l.op = .Plus) ∨
        (∀ l ∈ links, l.op = .Slash ∨ l.op = .Star)) →
      Parser.parse (chainToks x0 p0 links pe) = some (.ok (chainExpr x0 links))) ∧
    printExpr (chainExpr "1"
        [⟨.Minus, ⟨1, 2⟩, "2", ⟨1, 3⟩⟩, ⟨.Minus, ⟨1, 4⟩, "3", ⟨1, 5⟩⟩]) =
      .ok "(- (- 1 2) 3)" := by
  constructor
  · intro x0 p0 links pe hcase
    have hfe : Parser.parserFuel (chainToks x0 p0 links pe) =
        links.length + (23 * links.length + 27) + 8 := by
      rw [Parser.parserFuel, chainToks_length]
      omega
    rcases hcase with h | h | h | h
    · have he := expression_chain_equality x0 p0 links pe (23 * links.length + 27) h
      rw [← hfe] at he
      exact parse_of_expression he
    · have he := expression_chain_comparison x0 p0 links pe (23 * links.length + 27) h
      rw [← hfe] at he
      exact parse_of_expression he
    · have he := expression_chain_term x0 p0 links pe (23 * links.length + 27) h
      rw [← hfe] at he
      exact parse_of_expression he
    · have he := expression_chain_factor x0 p0 links pe (23 * links.length + 27) h
      rw [← hfe] at he
      exact parse_of_expression he
  · rfl

/-- C8 witness: the theorem applied to the chain `1 - 2 - 3`. -/
theorem claim_c8_witness :
    ((∀ l ∈ ([⟨.Minus, ⟨1, 2⟩, "2", ⟨1, 3⟩⟩,
        ⟨.Minus, ⟨1, 4⟩, "3", ⟨1, 5⟩⟩] : List ChainLink),
      l.op = Token.Minus ∨ l.op = Token.Plus) ∧
    Parser.parse (chainToks "1" ⟨1, 1⟩
        [⟨.Minus, ⟨1, 2⟩, "2", ⟨1, 3⟩⟩, ⟨.Minus, ⟨1, 4⟩, "3", ⟨1, 5⟩⟩] ⟨1, 6⟩) =
      some (.ok (chainExpr "1"
        [⟨.Minus, ⟨1, 2⟩, "2", ⟨1, 3⟩⟩, ⟨.Minus, ⟨1, 4⟩, "3", ⟨1, 5⟩⟩]))) ∧
    printExpr (chainExpr "1"
        [⟨.Minus, ⟨1, 2⟩, "2", ⟨1, 3⟩⟩, ⟨.Minus, ⟨1, 4⟩, "3", ⟨1, 5⟩⟩]) =
      .ok "(- (- 1 2) 3)" :=
  ⟨⟨by decide,
    claim_c8_left_associative.1 "1" ⟨1, 1⟩
      [⟨.Minus, ⟨1, 2⟩, "2", ⟨1, 3⟩⟩, ⟨.Minus, ⟨1, 4⟩, "3", ⟨1, 5⟩⟩] ⟨1, 6⟩
      (Or.inr (Or.inr (Or.inl (by decide))))⟩,
    claim_c8_left_associative.2⟩

/-- A parser outcome that neither panics nor runs out of fuel, and whose
cursor moved forward but not past the final `Eof`. -/
def cursorOk (pre : List TokenMetadata) (c : Nat) (r : Parser.PResult) : Prop :=
  r ≠ none ∧ ∀ e c', r = some (.ok (e, c')) → c ≤ c' ∧ c' ≤ pre.length

/-- Weaken the lower cursor bound of `cursorOk`. -/
lemma cursorOk_of_seq {pre : List TokenMetadata} {c c1 : Nat} {r : Parser.PResult}
    (hr : cursorOk pre c1 r) (hcc : c ≤ c1) : cursorOk pre c r :=
  ⟨hr.1, fun e c' h => ⟨le_trans hcc ((hr.2 e c' h)).1, ((hr.2 e c' h)).2⟩⟩

/-- `peek` at an in-bounds cursor. -/
lemma peek_of_lt {tks : List TokenMetadata} {c : Nat} (h : c < tks.length) :
    Parser.peek tks c = some (tks.get ⟨c, h⟩) := by
  rw [Parser.peek]
  exact List.get?_eq_get h

/-- `peek` is `some` anywhere up to and including the final `Eof`. -/
lemma peek_le (pre : List TokenMetadata) (pe : Position) {c : Nat}
    (h : c ≤ pre.length) :
    ∃ tm, Parser.peek (pre ++ [(⟨Token.Eof, pe⟩ : TokenMetadata)]) c = some tm := by
  have hlt : c < (pre ++ [(⟨Token.Eof, pe⟩ : TokenMetadata)]).length := by
    simp only [List.length_append, List.length_singleton]
    omega
  exact ⟨_, peek_of_lt hlt⟩

/-- `peek` at the index of the final `Eof`. -/
lemma peek_eof_at_end (pre : List TokenMetadata) (pe : Position) :
    Parser.peek (pre ++ [(⟨Token.Eof, pe⟩ : TokenMetadata)]) pre.length = some ⟨Token.Eof, pe⟩ := by
  rw [Parser.peek, get?_append_len]
  rfl

/-- A successful `check` happens strictly before the final `Eof`. -/
lemma check_true_lt {pre : List TokenMetadata} {pe : Position} {t : Token}
    {c : Nat} (h : Parser.check (pre ++ [(⟨Token.Eof, pe⟩ : TokenMetadata)]) t c = true) :
    c < pre.length := by
  by_contra hlt
  push_neg at hlt
  rcases Nat.eq_or_lt_of_le hlt with heq | hgt
  · rw [← heq] at h
    rw [check_of_get? (show (pre ++ [(⟨Token.Eof, pe⟩ : TokenMetadata)]).get? pre.length =
      some ⟨Token.Eof, pe⟩ from by rw [get?_append_len]; rfl)] at h
    simp at h
  · have hn : (pre ++ [(⟨Token.Eof, pe⟩ : TokenMetadata)]).get? c = none := by
      rw [List.get?_eq_none]
      simp only [List.length_append, List.length_singleton]
      omega
    rw [check_of_get?_none hn] at h
    exact absurd h (by simp)

/-- A failed `matches` leaves the cursor in place. -/
lemma matchesTk_false_cursor {tks : List TokenMetadata} {types : List Token}
    {c c1 : Nat} (h : Parser.matchesTk tks types c = (false, c1)) : c1 = c := by
  induction types with
  | nil =>
    rw [Parser.matchesTk] at h
    simp at h
    omega
  | cons t ts ih =>
    rw [Parser.matchesTk] at h
    by_cases hchk : Parser.check tks t c = true
    · rw [if_pos hchk] at h
      simp at h
    · rw [if_neg hchk] at h
      exact ih h

/-- A successful `matches` advances the cursor by one, from strictly before
the final `Eof`. -/
lemma matchesTk_true_cursor {pre : List TokenMetadata} {pe : Position}
    {types : List Token} {c c1 : Nat}
    (h : Parser.matchesTk (pre ++ [(⟨Token.Eof, pe⟩ : TokenMetadata)]) types c = (true, c1)) :
    c1 = c + 1 ∧ c < pre.length := by
  induction types with
  | nil =>
    rw [Parser.matchesTk] at h
    simp at h
  | cons t ts ih =>
    rw [Parser.matchesTk] at h
    by_cases hchk : Parser.check (pre ++ [(⟨Token.Eof, pe⟩ : TokenMetadata)]) t c = true
    · rw [if_pos hchk] at h
      simp at h
      exact ⟨h.symm, check_true_lt hchk⟩
    · rw [if_neg hchk] at h
      exact ih h

/-- `previous` one step after a cursor reads the token at that cursor. -/
lemma previous_succ (tks : List TokenMetadata) (c : Nat) :
    Parser.previous tks (c + 1) = tks.get? c := by
  rw [Parser.previous, if_neg (Nat.succ_ne_zero c)]
  rfl

/-- `previous` is `some` right after an in-bounds cursor. -/
lemma previous_some (pre : List TokenMetadata) (pe : Position) {c : Nat}
    (h : c < pre.length) :
    ∃ tm, Parser.previous (pre ++ [(⟨Token.Eof, pe⟩ : TokenMetadata)]) (c + 1) = some tm := by
  rw [previous_succ]
  have hlt : c < (pre ++ [(⟨Token.Eof, pe⟩ : TokenMetadata)]).length := by
    simp only [List.length_append, List.length_singleton]
    omega
  exact ⟨_, List.get?_eq_get hlt⟩

/-- A successful `consume` advances the cursor by one, from strictly before
the final `Eof`. -/
lemma consume_ok_bounds {pre : List TokenMetadata} {pe : Position} {t : Token}
    {c c1 : Nat} (h : Parser.consume (pre ++ [(⟨Token.Eof, pe⟩ : TokenMetadata)]) t c = .ok c1) :
    c1 = c + 1 ∧ c < pre.length := by
  rw [Parser.consume] at h
  by_cases hchk : Parser.check (pre ++ [(⟨Token.Eof, pe⟩ : TokenMetadata)]) t c = true
  · rw [if_pos hchk] at h
    exact ⟨(Except.ok.inj h).symm, check_true_lt hchk⟩
  · rw [if_neg hchk] at h
    exact absurd h (by simp)

/-- Fuel induction: with twelve units of fuel per remaining token plus the
rank of the rule in the descent ladder, every parser rule returns (no panic,
no fuel exhaustion) and moves the cursor forward but never past the final
`Eof`. -/
lemma parser_total (pre : List TokenMetadata) (pe : Position) (fuel : Nat) :
    (∀ c, 12 * (pre.length + 1 - c) + 1 ≤ fuel → c ≤ pre.length →
      cursorOk pre c (Parser.primary (pre ++ [(⟨Token.Eof, pe⟩ : TokenMetadata)]) c fuel)) ∧
    (∀ c, 12 * (pre.length + 1 - c) + 2 ≤ fuel → c ≤ pre.length →
      cursorOk pre c (Parser.unary (pre ++ [(⟨Token.Eof, pe⟩ : TokenMetadata)]) c fuel)) ∧
    (∀ e₀ c, 12 * (pre.length + 1 - c) + 3 ≤ fuel → c ≤ pre.length →
      cursorOk pre c (Parser.factor_fold (pre ++ [(⟨Token.Eof, pe⟩ : TokenMetadata)]) e₀ c fuel)) ∧
    (∀ c, 12 * (pre.length + 1 - c) + 4 ≤ fuel → c ≤ pre.length →
      cursorOk pre c (Parser.factor (pre ++ [(⟨Token.Eof, pe⟩ : TokenMetadata)]) c fuel)) ∧
    (∀ e₀ c, 12 * (pre.length + 1 - c) + 5 ≤ fuel → c ≤ pre.length →
      cursorOk pre c (Parser.term_fold (pre ++ [(⟨Token.Eof, pe⟩ : TokenMetadata)]) e₀ c fuel)) ∧
    (∀ c, 12 * (pre.length + 1 - c) + 6 ≤ fuel → c ≤ pre.length →
      cursorOk pre c (Parser.term (pre ++ [(⟨Token.Eof, pe⟩ : TokenMetadata)]) c fuel)) ∧
    (∀ e₀ c, 12 * (pre.length + 1 - c) + 7 ≤ fuel → c ≤ pre.length →
      cursorOk pre c (Parser.comparison_fold (pre ++ [(⟨Token.Eof, pe⟩ : TokenMetadata)]) e₀ c fuel)) ∧
    (∀ c, 12 * (pre.length + 1 - c) + 8 ≤ fuel → c ≤ pre.length →
      cursorOk pre c (Parser.comparison (pre ++ [(⟨Token.Eof, pe⟩ : TokenMetadata)]) c fuel)) ∧
    (∀ e₀ c, 12 * (pre.length + 1 - c) + 9 ≤ fuel → c ≤ pre.length →
      cursorOk pre c (Parser.equality_fold (pre ++ [(⟨Token.Eof, pe⟩ : TokenMetadata)]) e₀ c fuel)) ∧
    (∀ c, 12 * (pre.length + 1 - c) + 10 ≤ fuel → c ≤ pre.length →
      cursorOk pre c (Parser.equality (pre ++ [(⟨Token.Eof, pe⟩ : TokenMetadata)]) c fuel)) ∧
    (∀ c, 12 * (pre.length + 1 - c) + 11 ≤ fuel → c ≤ pre.length →
      cursorOk pre c (Parser.expression (pre ++ [(⟨Token.Eof, pe⟩ : TokenMetadata)]) c fuel)) := by
  induction fuel with
  | zero =>
    refine ⟨?_, ?_, ?_, ?_, ?_, ?_, ?_, ?_, ?_, ?_, ?_⟩
    · intro c hfuel hc
      exact absurd hfuel (by omega)
    · intro c hfuel hc
      exact absurd hfuel (by omega)
    · intro e₀ c hfuel hc
      exact absurd hfuel (by omega)
    · intro c hfuel hc
      exact absurd hfuel (by omega)
    · intro e₀ c hfuel hc
      exact absurd hfuel (by omega)
    · intro c hfuel hc
      exact absurd hfuel (by omega)
    · intro e₀ c hfuel hc
      exact absurd hfuel (by omega)
    · intro c hfuel hc
      exact absurd hfuel (by omega)
    · intro e₀ c hfuel hc
      exact absurd hfuel (by omega)
    · intro c hfuel hc
      exact absurd hfuel (by omega)
    · intro c hfuel hc
      exact absurd hfuel (by omega)
  | succ fuel ih =>
    obtain ⟨ihP, ihU, ihFF, ihF, ihTF, ihT, ihCF, ihC, ihEF, ihE, ihX⟩ := ih
    have hprimary : ∀ c, 12 * (pre.length + 1 - c) + 1 ≤ fuel + 1 → c ≤ pre.length →
        cursorOk pre c (Parser.primary (pre ++ [(⟨Token.Eof, pe⟩ : TokenMetadata)]) c (fuel + 1)) := by
      intro c hfuel hc
      rw [Parser.primary]
      obtain ⟨⟨b1, c1⟩, hm1⟩ : ∃ p, Parser.matchesTk (pre ++ [(⟨Token.Eof, pe⟩ : TokenMetadata)]) [Token.False] c = p := ⟨_, rfl⟩
      cases b1
      case true =>
        obtain ⟨hc1, hlt1⟩ := matchesTk_true_cursor hm1
        subst hc1
        simp only [hm1]
        refine ⟨by simp, fun e c' h => ?_⟩
        simp at h
        obtain ⟨-, h2⟩ := h
        omega
      case false =>
        rw [matchesTk_false_cursor hm1] at hm1
        simp only [hm1]
        obtain ⟨⟨b2, c2⟩, hm2⟩ : ∃ p, Parser.matchesTk (pre ++ [(⟨Token.Eof, pe⟩ : TokenMetadata)]) [Token.True] c = p := ⟨_, rfl⟩
        cases b2
        case true =>
          obtain ⟨hc2, hlt2⟩ := matchesTk_true_cursor hm2
          subst hc2
          simp only [hm2]
          refine ⟨by simp, fun e c' h => ?_⟩
          simp at h
          obtain ⟨-, h2⟩ := h
          omega
        case false =>
          rw [matchesTk_false_cursor hm2] at hm2
          simp only [hm2]
          obtain ⟨⟨b3, c3⟩, hm3⟩ : ∃ p, Parser.matchesTk (pre ++ [(⟨Token.Eof, pe⟩ : TokenMetadata)]) [Token.Null] c = p := ⟨_, rfl⟩
          cases b3
          case true =>
            obtain ⟨hc3, hlt3⟩ := matchesTk_true_cursor hm3
            subst hc3
            simp only [hm3]
            refine ⟨by simp, fun e c' h => ?_⟩
            simp at h
            obtain ⟨-, h2⟩ := h
            omega
          case false =>
            rw [matchesTk_false_cursor hm3] at hm3
            simp only [hm3]
            obtain ⟨tm, hpk⟩ := peek_le pre pe hc
            simp only [hpk]
            have hnum : ∀ s : String, tm.token = Token.Number s → c < pre.length := by
              intro s hs
              rcases Nat.lt_or_ge c pre.length with h | h
              · exact h
              · have hce : c = pre.length := Nat.le_antisymm hc h
                subst hce
                rw [peek_eof_at_end] at hpk
                have heq := Option.some.inj hpk
                rw [← heq] at hs
                simp at hs
            have hstr : ∀ s : String, tm.token = Token.String s → c < pre.length := by
              intro s hs
              rcases Nat.lt_or_ge c pre.length with h | h
              · exact h
              · have hce : c = pre.length := Nat.le_antisymm hc h
                subst hce
                rw [peek_eof_at_end] at hpk
                have heq := Option.some.inj hpk
                rw [← heq] at hs
                simp at hs
            cases htk : tm.token
            case String s =>
              have hcl := hstr s htk
              refine ⟨by simp, fun e c' h => ?_⟩
              simp at h
              obtain ⟨-, h2⟩ := h
              omega
            case Number n =>
              have hcl := hnum n htk
              refine ⟨by simp, fun e c' h => ?_⟩
              simp at h
              obtain ⟨-, h2⟩ := h
              omega
            all_goals
              obtain ⟨⟨b4, c4⟩, hm4⟩ : ∃ p, Parser.matchesTk (pre ++ [(⟨Token.Eof, pe⟩ : TokenMetadata)]) [Token.LeftParenthesis] c = p := ⟨_, rfl⟩
              cases b4
              case false =>
                rw [matchesTk_false_cursor hm4] at hm4
                simp only [hm4]
                exact ⟨by simp, fun e c' h => by simp at h⟩
              case true =>
                obtain ⟨hc4, hlt4⟩ := matchesTk_true_cursor hm4
                subst hc4
                simp only [hm4]
                obtain ⟨r, hres⟩ : ∃ r, Parser.expression (pre ++ [(⟨Token.Eof, pe⟩ : TokenMetadata)]) (c + 1) fuel = r := ⟨_, rfl⟩
                rcases r with _ | (er | ⟨e, c5⟩)
                · exact absurd hres (ihX (c + 1) (by omega) (by omega)).1
                · simp only [hres]
                  exact ⟨by simp, fun e c' h => by simp at h⟩
                · simp only [hres]
                  have hb := (ihX (c + 1) (by omega) (by omega)).2 e c5 hres
                  obtain ⟨cr, hcons⟩ : ∃ x, Parser.consume (pre ++ [(⟨Token.Eof, pe⟩ : TokenMetadata)]) Token.RightParenthesis c5 = x := ⟨_, rfl⟩
                  rcases cr with er | c6
                  · simp only [hcons]
                    exact ⟨by simp, fun e c' h => by simp at h⟩
                  · simp only [hcons]
                    obtain ⟨hc6, hlt6⟩ := consume_ok_bounds hcons
                    refine ⟨by simp, fun e c' h => ?_⟩
                    simp at h
                    obtain ⟨-, h2⟩ := h
                    omega
    have hunary : ∀ c, 12 * (pre.length + 1 - c) + 2 ≤ fuel + 1 → c ≤ pre.length →
        cursorOk pre c (Parser.unary (pre ++ [(⟨Token.Eof, pe⟩ : TokenMetadata)]) c (fuel + 1)) := by
      intro c hfuel hc
      rw [Parser.unary]
      obtain ⟨⟨b, c1⟩, hm⟩ : ∃ p, Parser.matchesTk (pre ++ [(⟨Token.Eof, pe⟩ : TokenMetadata)]) [Token.Bang, Token.Minus] c = p := ⟨_, rfl⟩
      cases b
      · rw [matchesTk_false_cursor hm] at hm
        simp only [hm]
        exact ihP c (by omega) hc
      · obtain ⟨hc1, hlt⟩ := matchesTk_true_cursor hm
        subst hc1
        obtain ⟨op, hop⟩ := previous_some pre pe hlt
        simp only [hm, hop]
        obtain ⟨r, hres⟩ : ∃ r, Parser.unary (pre ++ [(⟨Token.Eof, pe⟩ : TokenMetadata)]) (c + 1) fuel = r := ⟨_, rfl⟩
        rcases r with _ | (er | ⟨right, c2⟩)
        · exact absurd hres (ihU (c + 1) (by omega) (by omega)).1
        · simp only [hres]
          exact ⟨by simp, fun e c' h => by simp at h⟩
        · simp only [hres]
          have hb := (ihU (c + 1) (by omega) (by omega)).2 right c2 hres
          refine ⟨by simp, fun e c' h => ?_⟩
          simp at h
          obtain ⟨-, h2⟩ := h
          omega
    have hfactor_fold : ∀ e₀ c, 12 * (pre.length + 1 - c) + 3 ≤ fuel + 1 → c ≤ pre.length →
        cursorOk pre c (Parser.factor_fold (pre ++ [(⟨Token.Eof, pe⟩ : TokenMetadata)]) e₀ c (fuel + 1)) := by
      intro e₀ c hfuel hc
      rw [Parser.factor_fold]
      obtain ⟨⟨b, c1⟩, hm⟩ : ∃ p, Parser.matchesTk (pre ++ [(⟨Token.Eof, pe⟩ : TokenMetadata)]) [Token.Slash, Token.Star] c = p := ⟨_, rfl⟩
      cases b
      · rw [matchesTk_false_cursor hm] at hm
        simp only [hm]
        refine ⟨by simp, fun e c' h => ?_⟩
        simp at h
        obtain ⟨-, h2⟩ := h
        omega
      · obtain ⟨hc1, hlt⟩ := matchesTk_true_cursor hm
        subst hc1
        obtain ⟨op, hop⟩ := previous_some pre pe hlt
        simp only [hm, hop]
        obtain ⟨r, hres⟩ : ∃ r, Parser.unary (pre ++ [(⟨Token.Eof, pe⟩ : TokenMetadata)]) (c + 1) fuel = r := ⟨_, rfl⟩
        rcases r with _ | (er | ⟨right, c2⟩)
        · exact absurd hres (ihU (c + 1) (by omega) (by omega)).1
        · simp only [hres]
          exact ⟨by simp, fun e c' h => by simp at h⟩
        · simp only [hres]
          have hb := (ihU (c + 1) (by omega) (by omega)).2 right c2 hres
          exact cursorOk_of_seq
            (ihFF (Expression.Binary e₀ op.token right) c2 (by omega) hb.2)
            (by omega)
    have hfactor : ∀ c, 12 * (pre.length + 1 - c) + 4 ≤ fuel + 1 → c ≤ pre.length →
        cursorOk pre c (Parser.factor (pre ++ [(⟨Token.Eof, pe⟩ : TokenMetadata)]) c (fuel + 1)) := by
      intro c hfuel hc
      rw [Parser.factor]
      obtain ⟨r, hres⟩ : ∃ r, Parser.unary (pre ++ [(⟨Token.Eof, pe⟩ : TokenMetadata)]) c fuel = r := ⟨_, rfl⟩
      rcases r with _ | (er | ⟨e, c1⟩)
      · exact absurd hres (ihU c (by omega) hc).1
      · simp only [hres]
        exact ⟨by simp, fun e c' h => by simp at h⟩
      · simp only [hres]
        have hb := (ihU c (by omega) hc).2 e c1 hres
        exact cursorOk_of_seq (ihFF e c1 (by omega) hb.2) hb.1
    have hterm_fold : ∀ e₀ c, 12 * (pre.length + 1 - c) + 5 ≤ fuel + 1 → c ≤ pre.length →
        cursorOk pre c (Parser.term_fold (pre ++ [(⟨Token.Eof, pe⟩ : TokenMetadata)]) e₀ c (fuel + 1)) := by
      intro e₀ c hfuel hc
      rw [Parser.term_fold]
      obtain ⟨⟨b, c1⟩, hm⟩ : ∃ p, Parser.matchesTk (pre ++ [(⟨Token.Eof, pe⟩ : TokenMetadata)]) [Token.Minus, Token.Plus] c = p := ⟨_, rfl⟩
      cases b
      · rw [matchesTk_false_cursor hm] at hm
        simp only [hm]
        refine ⟨by simp, fun e c' h => ?_⟩
        simp at h
        obtain ⟨-, h2⟩ := h
        omega
      · obtain ⟨hc1, hlt⟩ := matchesTk_true_cursor hm
        subst hc1
        obtain ⟨op, hop⟩ := previous_some pre pe hlt
        simp only [hm, hop]
        obtain ⟨r, hres⟩ : ∃ r, Parser.factor (pre ++ [(⟨Token.Eof, pe⟩ : TokenMetadata)]) (c + 1) fuel = r := ⟨_, rfl⟩
        rcases r with _ | (er | ⟨right, c2⟩)
        · exact absurd hres (ihF (c + 1) (by omega) (by omega)).1
        · simp only [hres]
          exact ⟨by simp, fun e c' h => by simp at h⟩
        · simp only [hres]
          have hb := (ihF (c + 1) (by omega) (by omega)).2 right c2 hres
          exact cursorOk_of_seq
            (ihTF (Expression.Binary e₀ op.token right) c2 (by omega) hb.2)
            (by omega)
    have hterm : ∀ c, 12 * (pre.length + 1 - c) + 6 ≤ fuel + 1 → c ≤ pre.length →
        cursorOk pre c (Parser.term (pre ++ [(⟨Token.Eof, pe⟩ : TokenMetadata)]) c (fuel + 1)) := by
      intro c hfuel hc
      rw [Parser.term]
      obtain ⟨r, hres⟩ : ∃ r, Parser.factor (pre ++ [(⟨Token.Eof, pe⟩ : TokenMetadata)]) c fuel = r := ⟨_, rfl⟩
      rcases r with _ | (er | ⟨e, c1⟩)
      · exact absurd hres (ihF c (by omega) hc).1
      · simp only [hres]
        exact ⟨by simp, fun e c' h => by simp at h⟩
      · simp only [hres]
        have hb := (ihF c (by omega) hc).2 e c1 hres
        exact cursorOk_of_seq (ihTF e c1 (by omega) hb.2) hb.1
    have hcomparison_fold : ∀ e₀ c, 12 * (pre.length + 1 - c) + 7 ≤ fuel + 1 → c ≤ pre.length →
        cursorOk pre c (Parser.comparison_fold (pre ++ [(⟨Token.Eof, pe⟩ : TokenMetadata)]) e₀ c (fuel + 1)) := by
      intro e₀ c hfuel hc
      rw [Parser.comparison_fold]
      obtain ⟨⟨b, c1⟩, hm⟩ : ∃ p, Parser.matchesTk (pre ++ [(⟨Token.Eof, pe⟩ : TokenMetadata)]) [Token.Greater, Token.GreaterEqual, Token.Less, Token.LessEqual] c = p := ⟨_, rfl⟩
      cases b
      · rw [matchesTk_false_cursor hm] at hm
        simp only [hm]
        refine ⟨by simp, fun e c' h => ?_⟩
        simp at h
        obtain ⟨-, h2⟩ := h
        omega
      · obtain ⟨hc1, hlt⟩ := matchesTk_true_cursor hm
        subst hc1
        obtain ⟨op, hop⟩ := previous_some pre pe hlt
        simp only [hm, hop]
        obtain ⟨r, hres⟩ : ∃ r, Parser.term (pre ++ [(⟨Token.Eof, pe⟩ : TokenMetadata)]) (c + 1) fuel = r := ⟨_, rfl⟩
        rcases r with _ | (er | ⟨right, c2⟩)
        · exact absurd hres (ihT (c + 1) (by omega) (by omega)).1
        · simp only [hres]
          exact ⟨by simp, fun e c' h => by simp at h⟩
        · simp only [hres]
          have hb := (ihT (c + 1) (by omega) (by omega)).2 right c2 hres
          exact cursorOk_of_seq
            (ihCF (Expression.Binary e₀ op.token right) c2 (by omega) hb.2)
            (by omega)
    have hcomparison : ∀ c, 12 * (pre.length + 1 - c) + 8 ≤ fuel + 1 → c ≤ pre.length →
        cursorOk pre c (Parser.comparison (pre ++ [(⟨Token.Eof, pe⟩ : TokenMetadata)]) c (fuel + 1)) := by
      intro c hfuel hc
      rw [Parser.comparison]
      obtain ⟨r, hres⟩ : ∃ r, Parser.term (pre ++ [(⟨Token.Eof, pe⟩ : TokenMetadata)]) c fuel = r := ⟨_, rfl⟩
      rcases r with _ | (er | ⟨e, c1⟩)
      · exact absurd hres (ihT c (by omega) hc).1
      · simp only [hres]
        exact ⟨by simp, fun e c' h => by simp at h⟩
      · simp only [hres]
        have hb := (ihT c (by omega) hc).2 e c1 hres
        exact cursorOk_of_seq (ihCF e c1 (by omega) hb.2) hb.1
    have hequality_fold : ∀ e₀ c, 12 * (pre.length + 1 - c) + 9 ≤ fuel + 1 → c ≤ pre.length →
        cursorOk pre c (Parser.equality_fold (pre ++ [(⟨Token.Eof, pe⟩ : TokenMetadata)]) e₀ c (fuel + 1)) := by
      intro e₀ c hfuel hc
      rw [Parser.equality_fold]
      obtain ⟨⟨b, c1⟩, hm⟩ : ∃ p, Parser.matchesTk (pre ++ [(⟨Token.Eof, pe⟩ : TokenMetadata)]) [Token.BangEqual, Token.EqualEqual] c = p := ⟨_, rfl⟩
      cases b
      · rw [matchesTk_false_cursor hm] at hm
        simp only [hm]
        refine ⟨by simp, fun e c' h => ?_⟩
        simp at h
        obtain ⟨-, h2⟩ := h
        omega
      · obtain ⟨hc1, hlt⟩ := matchesTk_true_cursor hm
        subst hc1
        obtain ⟨op, hop⟩ := previous_some pre pe hlt
        simp only [hm, hop]
        obtain ⟨r, hres⟩ : ∃ r, Parser.comparison (pre ++ [(⟨Token.Eof, pe⟩ : TokenMetadata)]) (c + 1) fuel = r := ⟨_, rfl⟩
        rcases r with _ | (er | ⟨right, c2⟩)
        · exact absurd hres (ihC (c + 1) (by omega) (by omega)).1
        · simp only [hres]
          exact ⟨by simp, fun e c' h => by simp at h⟩
        · simp only [hres]
          have hb := (ihC (c + 1) (by omega) (by omega)).2 right c2 hres
          exact cursorOk_of_seq
            (ihEF (Expression.Binary e₀ op.token right) c2 (by omega) hb.2)
            (by omega)
    have hequality : ∀ c, 12 * (pre.length + 1 - c) + 10 ≤ fuel + 1 → c ≤ pre.length →
        cursorOk pre c (Parser.equality (pre ++ [(⟨Token.Eof, pe⟩ : TokenMetadata)]) c (fuel + 1)) := by
      intro c hfuel hc
      rw [Parser.equality]
      obtain ⟨r, hres⟩ : ∃ r, Parser.comparison (pre ++ [(⟨Token.Eof, pe⟩ : TokenMetadata)]) c fuel = r := ⟨_, rfl⟩
      rcases r with _ | (er | ⟨e, c1⟩)
      · exact absurd hres (ihC c (by omega) hc).1
      · simp only [hres]
        exact ⟨by simp, fun e c' h => by simp at h⟩
      · simp only [hres]
        have hb := (ihC c (by omega) hc).2 e c1 hres
        exact cursorOk_of_seq (ihEF e c1 (by omega) hb.2) hb.1
    have hexpression : ∀ c, 12 * (pre.length + 1 - c) + 11 ≤ fuel + 1 → c ≤ pre.length →
        cursorOk pre c (Parser.expression (pre ++ [(⟨Token.Eof, pe⟩ : TokenMetadata)]) c (fuel + 1)) := by
      intro c hfuel hc
      rw [Parser.expression]
      exact ihE c (by omega) hc
    exact ⟨hprimary, hunary, hfactor_fold, hfactor, hterm_fold, hterm,
      hcomparison_fold, hcomparison, hequality_fold, hequality, hexpression⟩

/-- C10: on every token sequence whose last element is `Eof` and in which
`Eof` appears at no other index, `parse` never panics (`none` models both the
Rust `unwrap` panics and non-termination); and from any in-bounds cursor with
enough fuel, `expression` returns, only ever moves the cursor forward, and
never moves it past the index of the final `Eof` — so every internal
`peek`/`previous` unwrap and token access stays in bounds. -/
theorem claim_c10_no_panic (tks : List TokenMetadata) (h : WFTokens tks) :
    Parser.parse tks ≠ none ∧
    ∀ c fuel, 12 * (tks.length - c) + 11 ≤ fuel → c < tks.length →
      Parser.expression tks c fuel ≠ none ∧
      ∀ e c', Parser.expression tks c fuel = some (.ok (e, c')) →
        c ≤ c' ∧ c' < tks.length := by
  obtain ⟨pre, pe, rfl, -⟩ := h
  have hlen : (pre ++ [(⟨Token.Eof, pe⟩ : TokenMetadata)]).length = pre.length + 1 := by
    simp
  constructor
  · obtain ⟨-, -, -, -, -, -, -, -, -, -, hX⟩ :=
      parser_total pre pe
        (Parser.parserFuel (pre ++ [(⟨Token.Eof, pe⟩ : TokenMetadata)]))
    have hx := hX 0 (by rw [Parser.parserFuel, hlen]; omega) (Nat.zero_le _)
    rw [Parser.parse]
    obtain ⟨r, hres⟩ : ∃ r,
        Parser.expression (pre ++ [(⟨Token.Eof, pe⟩ : TokenMetadata)]) 0
          (Parser.parserFuel (pre ++ [(⟨Token.Eof, pe⟩ : TokenMetadata)])) = r :=
      ⟨_, rfl⟩
    rcases r with _ | (er | ⟨e, c'⟩)
    · exact absurd hres hx.1
    · simp only [hres]
      simp
    · simp only [hres]
      simp
  · intro c fuel hfuel hc
    obtain ⟨-, -, -, -, -, -, -, -, -, -, hX⟩ := parser_total pre pe fuel
    have hx := hX c (by rw [hlen] at hfuel; omega) (by rw [hlen] at hc; omega)
    refine ⟨hx.1, fun e c' hres => ?_⟩
    have hb := hx.2 e c' hres
    rw [hlen]
    omega

/-- C10 witness: the theorem applied to the minimal well-formed token
sequence, a single `Eof`. -/
theorem claim_c10_witness :
    WFTokens [⟨Token.Eof, ⟨1, 1⟩⟩] ∧
    Parser.parse [⟨Token.Eof, ⟨1, 1⟩⟩] ≠ none :=
  ⟨⟨[], ⟨1, 1⟩, rfl, by simp⟩,
    (claim_c10_no_panic [⟨Token.Eof, ⟨1, 1⟩⟩] ⟨[], ⟨1, 1⟩, rfl, by simp⟩).1⟩

end Lhscript
